import Mathlib

/-!
Verification development for the core of the `shade` compiler:
type interning, the type-map codec, ABI-aware layout computation,
the MIR builder and the codegen declare pass.

Machine integers are modelled as `Nat` with explicit `% 2^w` where
the source wraps; fallible operations return `Option`.
-/

set_option maxHeartbeats 1000000

namespace Shade

/-! ## Type model

Modelled from the spec: the `Type` data model of `check::ty` (the file
`src/compiler/check/src/ty.rs` is not part of the sources; only its
callers are).  Variants follow §3 of the spec: `Error`, `Never`, `Bool`,
`Str`, `TypeId`, `Int(n)`, `UInt(n)`, `Float(n)`, `Var/VInt/VUInt/VFloat(k)`,
`Ref(mut, T)`, `Array(T, n)`, `Slice(T)`, `Tuple(List T)`,
`Func(List Param, T)` with `Param = {name, type}`, `Struct(id, List Field)`
with `Field = {name, type}`, `Enum(id, List Variant)` with
`Variant = {name, fields : Option (List Field)}`, `TypeOf(id)`, `Object`.
Names and identifiers are opaque; they are modelled as `Nat`. -/
inductive Ty where
  | error : Ty
  | never : Ty
  | bool : Ty
  | str : Ty
  | typeId : Ty
  | int (n : Nat) : Ty
  | uint (n : Nat) : Ty
  | float (n : Nat) : Ty
  | var (k : Nat) : Ty
  | vint (k : Nat) : Ty
  | vuint (k : Nat) : Ty
  | vfloat (k : Nat) : Ty
  | ref (m : Bool) (t : Ty) : Ty
  | array (t : Ty) (n : Nat) : Ty
  | slice (t : Ty) : Ty
  | tuple (ts : List Ty) : Ty
  | func (ps : List (Nat × Ty)) (ret : Ty) : Ty
  | struct (id : Nat) (fields : List (Nat × Ty)) : Ty
  | enum (id : Nat) (variants : List (Nat × Option (List (Nat × Ty)))) : Ty
  | typeOf (id : Nat) : Ty
  | object : Ty

mutual

/-- Structural equality on `Ty`, the `Eq` implementation the intern tables
key on (`#[derive(PartialEq, Eq)]` in the source is structural). -/
def Ty.beq : Ty → Ty → Bool
  | .error, .error => true
  | .never, .never => true
  | .bool, .bool => true
  | .str, .str => true
  | .typeId, .typeId => true
  | .int a, .int b => a == b
  | .uint a, .uint b => a == b
  | .float a, .float b => a == b
  | .var a, .var b => a == b
  | .vint a, .vint b => a == b
  | .vuint a, .vuint b => a == b
  | .vfloat a, .vfloat b => a == b
  | .ref m t, .ref m' t' => m == m' && Ty.beq t t'
  | .array t n, .array t' n' => Ty.beq t t' && n == n'
  | .slice t, .slice t' => Ty.beq t t'
  | .tuple ts, .tuple ts' => Ty.beqList ts ts'
  | .func ps r, .func ps' r' => Ty.beqFields ps ps' && Ty.beq r r'
  | .struct i fs, .struct i' fs' => i == i' && Ty.beqFields fs fs'
  | .enum i vs, .enum i' vs' => i == i' && Ty.beqVariants vs vs'
  | .typeOf i, .typeOf i' => i == i'
  | .object, .object => true
  | _, _ => false

def Ty.beqList : List Ty → List Ty → Bool
  | [], [] => true
  | t :: ts, t' :: ts' => Ty.beq t t' && Ty.beqList ts ts'
  | _, _ => false

def Ty.beqFields : List (Nat × Ty) → List (Nat × Ty) → Bool
  | [], [] => true
  | (n, t) :: fs, (n', t') :: fs' => n == n' && Ty.beq t t' && Ty.beqFields fs fs'
  | _, _ => false

def Ty.beqVariants :
    List (Nat × Option (List (Nat × Ty))) → List (Nat × Option (List (Nat × Ty))) → Bool
  | [], [] => true
  | (n, of) :: vs, (n', of') :: vs' => n == n' && Ty.beqOptFields of of' && Ty.beqVariants vs vs'
  | _, _ => false

def Ty.beqOptFields : Option (List (Nat × Ty)) → Option (List (Nat × Ty)) → Bool
  | none, none => true
  | some fs, some fs' => Ty.beqFields fs fs'
  | _, _ => false

end

/-! ## Layout arithmetic

From `src/compiler/mir/src/layout.rs` (`Size`, `Align`, `Integer`,
`Primitive`, `Scalar`, `Niche`); the check crate's layout module uses the
same arithmetic.  A `Size` is its byte count (`raw : u64`, here `Nat`);
an `Align` is its power-of-two exponent (`pow2 : u8`, here `Nat`). -/

/-- The `target_lexicon::Triple::pointer_width()` outcomes, as matched in the
source (`Ok(U16 | U32 | U64)` or `Err(_)`). -/
inductive PtrWidth where
  | u16 | u32 | u64 | err
  deriving DecidableEq

/-- The `Size::from_bits`: `bits / 8 + ((bits % 8) + 7) / 8` bytes. -/
def sizeFromBits (bits : Nat) : Nat :=
  bits / 8 + ((bits % 8) + 7) / 8

/-- The `Size::align_to`: `(bytes + mask) & !mask` with `mask = align.bytes() - 1`;
for a power-of-two alignment `2 ^ p` the masked value is
`(bytes + mask) - (bytes + mask) % 2 ^ p`. -/
def sizeAlignTo (s p : Nat) : Nat :=
  (s + (2 ^ p - 1)) - (s + (2 ^ p - 1)) % 2 ^ p

/-- The `while (bytes & 1) == 0 { pow2 += 1; bytes >>= 1 }` loop of
`Align::from_bytes`, with explicit fuel (the source loop terminates because
the nonzero byte count is halved at every step). -/
def ctzFuel : Nat → Nat → Nat
  | 0, _ => 0
  | f + 1, b => if b % 2 == 0 then ctzFuel f (b / 2) + 1 else 0

/-- The `Align::from_bytes`: 0 bytes is `Align::ONE`; otherwise the number of
trailing zero bits of the byte count. -/
def alignFromBytes (b : Nat) : Nat :=
  if b == 0 then 0 else ctzFuel b b

/-- The `Align::bytes`: `1 << pow2`. -/
def alignBytes (p : Nat) : Nat := 2 ^ p

/-- The `Integer` of `layout.rs`. -/
inductive Integer where
  | i8 | i16 | i32 | i64 | i128
  deriving DecidableEq

/-- The `Integer::size`. -/
def Integer.size : Integer → Nat
  | .i8 => sizeFromBits 8
  | .i16 => sizeFromBits 16
  | .i32 => sizeFromBits 32
  | .i64 => sizeFromBits 64
  | .i128 => sizeFromBits 128

/-- The `Primitive` of `layout.rs`. -/
inductive Primitive where
  | int (i : Integer) (signed : Bool)
  | f32
  | f64
  | pointer
  deriving DecidableEq

/-- The `Primitive::size`. -/
def Primitive.size (p : Primitive) (t : PtrWidth) : Nat :=
  match p with
  | .int i _ => i.size
  | .f32 => sizeFromBits 32
  | .f64 => sizeFromBits 64
  | .pointer =>
    match t with
    | .u16 => sizeFromBits 16
    | .u32 => sizeFromBits 32
    | .u64 => sizeFromBits 64
    | .err => sizeFromBits 32

/-- The `Primitive::align`: `Align::from_bytes(self.size(triple).bytes())`. -/
def Primitive.align (p : Primitive) (t : PtrWidth) : Nat :=
  alignFromBytes (p.size t)

/-- The `Scalar`: a primitive with an inclusive `u128` valid range `lo..=hi`. -/
structure Scalar where
  value : Primitive
  lo : Nat
  hi : Nat
  deriving DecidableEq

/-- The `scalar_unit` of `Tcx::layout` (also `Scalar::new`):
`valid_range = 0..=(!0u128 >> (128 - bits))`. -/
def scalarUnit (t : PtrWidth) (value : Primitive) : Scalar :=
  { value := value, lo := 0, hi := (2 ^ 128 - 1) >>> (128 - value.size t * 8) }

/-- The `Niche`: a scalar at an offset. -/
structure Niche where
  offset : Nat
  scalar : Scalar
  deriving DecidableEq

/-- The `Niche::available`: the wrapped length of the invalid gap
`valid_range.end + 1 .. valid_range.start`, masked to the scalar's width. -/
def Niche.available (n : Niche) (t : PtrWidth) : Nat :=
  let bits := n.scalar.value.size t * 8
  let maxValue := (2 ^ 128 - 1) >>> (128 - bits)
  let nicheStart := (n.scalar.hi + 1) % 2 ^ 128
  ((n.scalar.lo + 2 ^ 128 - nicheStart) % 2 ^ 128) &&& maxValue

/-- The `Niche::from_scalar`: kept only when `available > 0`. -/
def Niche.fromScalar (t : PtrWidth) (offset : Nat) (s : Scalar) : Option Niche :=
  let n : Niche := ⟨offset, s⟩
  if n.available t > 0 then some n else none

/-- Rust's `Iterator::max_by_key`: the last element with the maximal key
(on ties the later element wins). -/
def maxByKey (f : α → Nat) (l : List α) : Option α :=
  l.foldl
    (fun acc x =>
      match acc with
      | none => some x
      | some y => if f x ≥ f y then some x else some y)
    none

/-! ## The check crate's layout type

`Layout` as constructed by `src/compiler/check/src/tcx.rs`
(`{size, align, stride, abi, fields, variants, largest_niche}`); the
variant layouts of `Variants::Multiple` and the member layouts of
`FieldsShape::Union` make the type recursive. -/

/-- The `TagEncoding` of the layout module. -/
inductive TagEncoding where
  | direct
  | niche (datafulVariant : Nat) (nicheVariantsLo nicheVariantsHi : Nat) (nicheStart : Nat)
  deriving DecidableEq

/-- The `Abi` of the layout module. -/
inductive CAbi where
  | uninhabited
  | scalar (s : Scalar)
  | scalarPair (a b : Scalar)
  | aggregate (sized : Bool)
  deriving DecidableEq

mutual

/-- The check crate's `Layout` record. -/
inductive CLayout where
  | mk (size : Nat) (align : Nat) (stride : Nat) (abi : CAbi) (fields : CFields)
      (variants : CVariants) (largestNiche : Option Niche) : CLayout

/-- The `FieldsShape` of the layout module. -/
inductive CFields where
  | primitive : CFields
  | array (stride : Nat) (count : Nat) : CFields
  | union (fields : List CLayout) : CFields
  | arbitrary (offsets : List Nat) : CFields

/-- The `Variants` of the layout module. -/
inductive CVariants where
  | single (index : Nat) : CVariants
  | multiple (tag : Scalar) (tagEncoding : TagEncoding) (tagField : Nat)
      (variants : List CLayout) : CVariants

end

def CLayout.size : CLayout → Nat
  | .mk s _ _ _ _ _ _ => s

def CLayout.align : CLayout → Nat
  | .mk _ a _ _ _ _ _ => a

def CLayout.stride : CLayout → Nat
  | .mk _ _ st _ _ _ _ => st

def CLayout.abi : CLayout → CAbi
  | .mk _ _ _ abi _ _ _ => abi

def CLayout.fields : CLayout → CFields
  | .mk _ _ _ _ f _ _ => f

def CLayout.variants : CLayout → CVariants
  | .mk _ _ _ _ _ v _ => v

def CLayout.largestNiche : CLayout → Option Niche
  | .mk _ _ _ _ _ _ n => n

/-- The `Layout::scalar` (shared between the two layout modules). -/
def layoutScalar (t : PtrWidth) (s : Scalar) : CLayout :=
  let size := s.value.size t
  let align := alignFromBytes size
  let largestNiche := Niche.fromScalar t 0 s
  .mk size align (sizeAlignTo size align) (.scalar s) .primitive (.single 0) largestNiche

/-- The `Tcx::scalar_pair` (`src/compiler/check/src/tcx.rs:591`). -/
def cScalarPair (t : PtrWidth) (a b : Scalar) : CLayout :=
  let bAlign := b.value.align t
  let bOffset := sizeAlignTo (a.value.size t) bAlign
  let align := max (a.value.align t) bAlign
  let size := a.value.size t + b.value.size t
  let stride := sizeAlignTo (bOffset + b.value.size t) align
  let largestNiche := maxByKey (fun n => n.available t)
    ((Niche.fromScalar t bOffset b).toList ++ (Niche.fromScalar t 0 a).toList)
  .mk size align stride (.scalarPair a b) (.arbitrary [0, bOffset]) (.single 0) largestNiche

/-- The `Tcx::struct_layout` (`src/compiler/check/src/tcx.rs:615`): walk the
fields in order, aligning the running offset and collecting niches; the ABI
is always `Aggregate { sized: true }`. -/
def cStructLayout (t : PtrWidth) (fieldLyts : List CLayout) : CLayout :=
  let st := fieldLyts.foldl
    (fun (acc : Nat × Nat × List Nat × List Niche) field =>
      let (align, offset, offsets, niches) := acc
      let niches := match field.largestNiche with
        | some n => niches ++ [n]
        | none => niches
      let offset := sizeAlignTo offset field.align
      let align := max align field.align
      (align, offset + field.size, offsets ++ [offset], niches))
    (0, 0, [], [])
  let (align, offset, offsets, niches) := st
  let size := offset
  let stride := sizeAlignTo offset align
  let abi : CAbi := .aggregate true
  let largestNiche := maxByKey (fun n => n.available t) niches
  .mk size align stride abi (.arbitrary offsets) (.single 0) largestNiche

/-- The `variant.variants = Variants::Single { index: i }` of `Tcx::enum_layout`. -/
def cSetSingle (i : Nat) : CLayout → CLayout
  | .mk s a st abi f _ n => .mk s a st abi f (.single i) n

/-- The offset shift `*offset = *offset + tag_size` applied to each variant
inside `no_niche` of `Tcx::enum_layout`. -/
def cShiftArbitrary (tagSize : Nat) : CLayout → CLayout
  | .mk s a st abi (.arbitrary offsets) vars n =>
      .mk s a st abi (.arbitrary (offsets.map (· + tagSize))) vars n
  | l => l

/-- An arbitrary layout standing for the `unwrap` of `max_by_key` on the
(provably nonempty) variant list. -/
def defaultCLayout : CLayout :=
  .mk 0 0 0 (.aggregate true) .primitive (.single 0) none

/-- The `Tcx::enum_layout` (`src/compiler/check/src/tcx.rs:655`). -/
def cEnumLayout (t : PtrWidth) (vs : List CLayout) : CLayout :=
  match vs with
  | [] => .mk 0 0 0 (.aggregate true) (.arbitrary []) (.single 0) none
  | [v] => v
  | _ =>
    let largestNiche := maxByKey (fun n => Niche.available n t) (vs.filterMap CLayout.largestNiche)
    let vs1 := vs.enum.map (fun p => cSetSingle p.1 p.2)
    let largest := (maxByKey CLayout.size vs1).getD defaultCLayout
    let align := largest.align
    let size0 := largest.size
    let tagSize := sizeAlignTo (sizeFromBits vs.length) align
    let offsets := [0, tagSize]
    let tag : Scalar :=
      { value := .int
          (match tagSize with
            | 1 => .i8
            | 2 => .i16
            | 4 => .i32
            | 8 => .i64
            | _ => .i128)
          false,
        lo := 0, hi := 2 ^ 128 - 1 }
    let size := size0 + tagSize
    let shifted := vs1.map (cShiftArbitrary tagSize)
    let noNiche : CFields × CVariants := (.arbitrary offsets, .multiple tag .direct 0 shifted)
    let fv := match largestNiche with
      | some n => if Niche.available n t ≥ vs.length then noNiche else noNiche
      | none => noNiche
    let stride := sizeAlignTo size align
    .mk size align stride (.aggregate true) fv.1 fv.2 none

/-- The `Type::Ref(_, _)` arm of `Tcx::layout`
(`src/compiler/check/src/tcx.rs:511`): a pointer scalar whose valid range is
the one `scalar_unit` built — the lower bound is left at 0. -/
def refArmLayout (t : PtrWidth) : CLayout :=
  let dataPtr := scalarUnit t .pointer
  layoutScalar t dataPtr

/-! ## Shard selection (`src/compiler/check/src/sharded.rs`) -/

/-- The `Sharded::get_shard_index_by_hash`: with `hash_len = size_of::<usize>()`
(8 on the 64-bit hosts the compiler builds on), keep
`(hash >> (hash_len * 8 - 7 - SHARD_BITS)) % SHARDS` where
`SHARDS = 1 << SHARD_BITS`; the argument is a `u64` hash. -/
def getShardIndexByHash (shardBits : Nat) (hash : Nat) : Nat :=
  let hashLen := 8
  let bits := (hash % 2 ^ 64) >>> (hashLen * 8 - 7 - shardBits)
  bits % (1 <<< shardBits)

/-! ## Diagnostics (`Tcx::bug` / `Tcx::error`, `src/compiler/check/src/tcx.rs:357`)

The `diagnostics` crate is not under the sources; severities, labels and
the reporter are modelled from the spec (§6: severities
`{Bug, Error, Warning}`, diagnostics carry an optional numeric code, a
message and `(severity, span, label)` labels; §7: non-zero exit iff a
diagnostic of severity ≥ Error was emitted). -/

/-- Modelled from the spec: the severity levels of the `diagnostics` crate. -/
inductive Severity where
  | bug | error | warning
  deriving DecidableEq

/-- Modelled from the spec: `severity ≥ Error` under the ordering
`Bug > Error > Warning`. -/
def Severity.atLeastError : Severity → Bool
  | .bug => true
  | .error => true
  | .warning => false

/-- Modelled from the spec: a diagnostic label `(severity, span, label)`. -/
structure Label where
  severity : Severity
  span : Nat
  text : Option String

/-- Modelled from the spec: a diagnostic with severity, optional numeric
code, message and labels. -/
structure Diagnostic where
  severity : Severity
  code : Option Nat
  msg : String
  labels : List Label

/-- The `Diagnostic::new`. -/
def diagnosticNew (sev : Severity) (code : Option Nat) (msg : String) : Diagnostic :=
  ⟨sev, code, msg, []⟩

/-- The `Diagnostic::label`. -/
def Diagnostic.label (d : Diagnostic) (sev : Severity) (span : Nat) (text : Option String) :
    Diagnostic :=
  { d with labels := d.labels ++ [⟨sev, span, text⟩] }

/-- The `Reporter::add`, the reporter modelled as the list of pushed diagnostics. -/
def reporterAdd (r : List Diagnostic) (d : Diagnostic) : List Diagnostic :=
  r ++ [d]

/-- The `Tcx::bug`: pushes a `Severity::Bug` diagnostic. -/
def tcxBug (r : List Diagnostic) (code : Option Nat) (msg : String) (span : Nat) :
    List Diagnostic :=
  reporterAdd r ((diagnosticNew .bug code msg).label .bug span none)

/-- The `Tcx::error` (`src/compiler/check/src/tcx.rs:367`): the severity the
source actually passes is `Severity::Warning`, for the diagnostic and for
its label. -/
def tcxError (r : List Diagnostic) (code : Option Nat) (msg : String) (span : Nat) :
    List Diagnostic :=
  reporterAdd r ((diagnosticNew .warning code msg).label .warning span none)

/-- Modelled from the spec: `Reporter::has_errors` — some pushed diagnostic
has severity ≥ Error (§7: the exit code is non-zero iff this holds). -/
def hasErrors (r : List Diagnostic) : Bool :=
  r.any (fun d => d.severity.atLeastError)

/-! ## The mir crate's layout functions (`src/compiler/mir/src/layout.rs`)

The mir crate's `Layout` differs from the check crate's in its field shape
(`Arbitrary` stores `(offset, layout)` pairs) and carries an `elem`
back-pointer; `elem` is `None` in every layout the functions below build
and is omitted here. -/

mutual

/-- The mir crate's `Layout` record. -/
inductive MLayout where
  | mk (size : Nat) (align : Nat) (stride : Nat) (abi : CAbi) (fields : MFields)
      (variants : MVariants) (largestNiche : Option Niche) : MLayout

/-- The mir crate's `Fields`. -/
inductive MFields where
  | primitive : MFields
  | array (stride : Nat) (count : Nat) : MFields
  | union (fields : List MLayout) : MFields
  | arbitrary (fields : List (Nat × MLayout)) : MFields

/-- The mir crate's `Variants`. -/
inductive MVariants where
  | single (index : Nat) : MVariants
  | multiple (tag : Scalar) (tagEncoding : TagEncoding) (tagField : Nat)
      (variants : List MLayout) : MVariants

end

def MLayout.size : MLayout → Nat
  | .mk s _ _ _ _ _ _ => s

def MLayout.align : MLayout → Nat
  | .mk _ a _ _ _ _ _ => a

def MLayout.stride : MLayout → Nat
  | .mk _ _ st _ _ _ _ => st

def MLayout.abi : MLayout → CAbi
  | .mk _ _ _ abi _ _ _ => abi

def MLayout.fields : MLayout → MFields
  | .mk _ _ _ _ f _ _ => f

def MLayout.variants : MLayout → MVariants
  | .mk _ _ _ _ _ v _ => v

def MLayout.largestNiche : MLayout → Option Niche
  | .mk _ _ _ _ _ _ n => n

/-- The mir crate's `Layout::scalar`. -/
def mLayoutScalar (t : PtrWidth) (s : Scalar) : MLayout :=
  let size := s.value.size t
  let align := alignFromBytes size
  let largestNiche := Niche.fromScalar t 0 s
  .mk size align (sizeAlignTo size align) (.scalar s) .primitive (.single 0) largestNiche

/-- The `scalar_pair` (`src/compiler/mir/src/layout.rs:132`); note
`size = b_offset + b.size` here, unlike the check crate's variant. -/
def mScalarPair (t : PtrWidth) (a b : Scalar) : MLayout :=
  let bAlign := b.value.align t
  let align := max (a.value.align t) bAlign
  let bOffset := sizeAlignTo (a.value.size t) bAlign
  let size := bOffset + b.value.size t
  let largestNiche := maxByKey (fun n => n.available t)
    ((Niche.fromScalar t bOffset b).toList ++ (Niche.fromScalar t 0 a).toList)
  let aLyt := mLayoutScalar t a
  let bLyt := mLayoutScalar t b
  .mk size align (sizeAlignTo size align) (.scalarPair a b)
    (.arbitrary [(0, aLyt), (bOffset, bLyt)]) (.single 0) largestNiche

/-- The `struct_layout` (`src/compiler/mir/src/layout.rs:191`): the ABI is
promoted to the single field's `Scalar`/`ScalarPair`, or to a
`scalar_pair` of exactly two scalar fields, before the offsets walk. -/
def mStructLayout (t : PtrWidth) (lyts : List MLayout) : MLayout :=
  let abi : CAbi := .aggregate true
  let abi := match lyts.get? 0, lyts.get? 1, lyts.get? 2 with
    | some a, some b, none =>
      match a.abi, b.abi with
      | .scalar sa, .scalar sb => (mScalarPair t sa sb).abi
      | _, _ => abi
    | some s, none, none =>
      match s.abi with
      | .scalar _ => s.abi
      | .scalarPair _ _ => s.abi
      | _ => abi
    | _, _, _ => abi
  let st := lyts.foldl
    (fun (acc : Nat × Nat × List (Nat × MLayout) × List Niche) lyt =>
      let (align, offset, fields, niches) := acc
      let niches := match lyt.largestNiche with
        | some n => niches ++ [n]
        | none => niches
      let offset := sizeAlignTo offset lyt.align
      let align := max align lyt.align
      (align, offset + lyt.size, fields ++ [(offset, lyt)], niches))
    (0, 0, [], [])
  let (align, offset, fields, niches) := st
  let size := offset
  let stride := sizeAlignTo offset align
  let largestNiche := maxByKey (fun n => n.available t) niches
  .mk size align stride abi (.arbitrary fields) (.single 0) largestNiche

/-! ## The sharded intern tables (`src/compiler/check/src/sharded.rs`)

`ShardedHashMap::intern` over the type intern table
(`TcxIntern::intern_ty`): the shard is selected from the value's hash, the
shard map is searched by structural equality, and on a miss the value is
allocated in the arena (`make = |ty| Interned(arena.alloc(ty))`) — the
fresh arena pointer is modelled by the counter `next`. -/

/-- A sharded intern table: each shard is its map's entry list
`(pointer, value)`; `next` is the arena's next fresh pointer. -/
structure Interner where
  shards : List (List (Nat × Ty))
  next : Nat

/-- A freshly created `Sharded` table: `SHARDS = 1 << SHARD_BITS` empty
shards. -/
def mkInterner (shardBits : Nat) : Interner :=
  ⟨List.replicate (1 <<< shardBits) [], 0⟩

/-- The `ShardedHashMap::intern` (`src/compiler/check/src/sharded.rs:139`):
hash the value, lock its shard, return the existing structurally equal key
or insert a freshly allocated one.  `hash` stands for `FxHasher`. -/
def Interner.intern (hash : Ty → Nat) (shardBits : Nat) (s : Interner) (t : Ty) :
    Interner × Nat :=
  let idx := getShardIndexByHash shardBits (hash t)
  let shard := s.shards.getD idx []
  match shard.find? (fun e => Ty.beq e.2 t) with
  | some e => (s, e.1)
  | none =>
    ({ shards := s.shards.set idx ((s.next, t) :: shard), next := s.next + 1 }, s.next)

/-- Look a pointer up in the intern table (the dereference of an interned
`Ty<'tcx>`). -/
def Interner.deref (s : Interner) (p : Nat) : Option Ty :=
  ((s.shards.flatten).find? (fun e => e.1 == p)).map (·.2)

/-- The structural invariant of a sharded intern table: the shard array has
`SHARDS = 1 << SHARD_BITS` shards, every entry lives in the shard selected
by its value's hash, arena pointers are below the bump cursor and unique,
and no value is interned twice (the hash-consing property). -/
def Interner.Wf (hash : Ty → Nat) (k : Nat) (s : Interner) : Prop :=
  s.shards.length = 1 <<< k ∧
  (∀ i (hi : i < s.shards.length), ∀ e ∈ s.shards[i],
    getShardIndexByHash k (hash e.2) = i) ∧
  (∀ e, e ∈ s.shards.flatten → e.1 < s.next) ∧
  (∀ e f, e ∈ s.shards.flatten → f ∈ s.shards.flatten → e.1 = f.1 → e = f) ∧
  (∀ e f, e ∈ s.shards.flatten → f ∈ s.shards.flatten → e.2 = f.2 → e = f)

/-! ## The type-map codec

Modelled from the spec: `src/compiler/check/src/ty.rs` (the `Type`
serializer `ty::ser` with its seeded, interner-threading deserializer) is
not among the sources.  Per §4.3 the on-disk layout is a fixed-int,
length-prefixed `[(id, type_tree)]`; the words are modelled as `Nat`
tokens, each type tree written as a tag followed by its payload. -/

mutual

/-- Modelled from the spec: fixed-int serialization of one `Type` tree. -/
def encodeTy : Ty → List Nat
  | .error => [0]
  | .never => [1]
  | .bool => [2]
  | .str => [3]
  | .typeId => [4]
  | .int n => [5, n]
  | .uint n => [6, n]
  | .float n => [7, n]
  | .var k => [8, k]
  | .vint k => [9, k]
  | .vuint k => [10, k]
  | .vfloat k => [11, k]
  | .ref m t => 12 :: (if m then 1 else 0) :: encodeTy t
  | .array t n => 13 :: (encodeTy t ++ [n])
  | .slice t => 14 :: encodeTy t
  | .tuple ts => 15 :: ts.length :: encodeTyList ts
  | .func ps r => 16 :: ps.length :: (encodeFieldList ps ++ encodeTy r)
  | .struct i fs => 17 :: i :: fs.length :: encodeFieldList fs
  | .enum i vs => 18 :: i :: vs.length :: encodeVariantList vs
  | .typeOf i => [19, i]
  | .object => [20]

def encodeTyList : List Ty → List Nat
  | [] => []
  | t :: ts => encodeTy t ++ encodeTyList ts

def encodeFieldList : List (Nat × Ty) → List Nat
  | [] => []
  | (n, t) :: fs => n :: (encodeTy t ++ encodeFieldList fs)

def encodeVariantList : List (Nat × Option (List (Nat × Ty))) → List Nat
  | [] => []
  | (n, none) :: vs => n :: 0 :: encodeVariantList vs
  | (n, some fs) :: vs => n :: 1 :: fs.length :: (encodeFieldList fs ++ encodeVariantList vs)

end

mutual

/-- Node count of a type tree; a lower bound for the fuel the decoder
needs. -/
def Ty.m : Ty → Nat
  | .error => 1
  | .never => 1
  | .bool => 1
  | .str => 1
  | .typeId => 1
  | .int _ => 1
  | .uint _ => 1
  | .float _ => 1
  | .var _ => 1
  | .vint _ => 1
  | .vuint _ => 1
  | .vfloat _ => 1
  | .ref _ t => 1 + t.m
  | .array t _ => 1 + t.m
  | .slice t => 1 + t.m
  | .tuple ts => 1 + Ty.mList ts
  | .func ps r => 1 + max (Ty.mFields ps) r.m
  | .struct _ fs => 1 + Ty.mFields fs
  | .enum _ vs => 1 + Ty.mVariants vs
  | .typeOf _ => 1
  | .object => 1

def Ty.mList : List Ty → Nat
  | [] => 1
  | t :: ts => 1 + max t.m (Ty.mList ts)

def Ty.mFields : List (Nat × Ty) → Nat
  | [] => 1
  | (_, t) :: fs => 1 + max t.m (Ty.mFields fs)

def Ty.mVariants : List (Nat × Option (List (Nat × Ty))) → Nat
  | [] => 1
  | (_, none) :: vs => 1 + Ty.mVariants vs
  | (_, some fs) :: vs => 1 + max (Ty.mFields fs) (Ty.mVariants vs)

end

mutual

/-- Modelled from the spec: the fuelled decoder for one `Type` tree;
returns the decoded tree and the remaining tokens. -/
def decodeTy : Nat → List Nat → Option (Ty × List Nat)
  | 0, _ => none
  | fuel + 1, toks =>
    match toks with
    | 0 :: r => some (.error, r)
    | 1 :: r => some (.never, r)
    | 2 :: r => some (.bool, r)
    | 3 :: r => some (.str, r)
    | 4 :: r => some (.typeId, r)
    | 5 :: n :: r => some (.int n, r)
    | 6 :: n :: r => some (.uint n, r)
    | 7 :: n :: r => some (.float n, r)
    | 8 :: k :: r => some (.var k, r)
    | 9 :: k :: r => some (.vint k, r)
    | 10 :: k :: r => some (.vuint k, r)
    | 11 :: k :: r => some (.vfloat k, r)
    | 12 :: m :: r => do
      let (t, r) ← decodeTy fuel r
      some (.ref (m == 1) t, r)
    | 13 :: r => do
      let (t, r) ← decodeTy fuel r
      match r with
      | n :: r => some (.array t n, r)
      | [] => none
    | 14 :: r => do
      let (t, r) ← decodeTy fuel r
      some (.slice t, r)
    | 15 :: len :: r => do
      let (ts, r) ← decodeTyList fuel len r
      some (.tuple ts, r)
    | 16 :: len :: r => do
      let (ps, r) ← decodeFieldList fuel len r
      let (t, r) ← decodeTy fuel r
      some (.func ps t, r)
    | 17 :: i :: len :: r => do
      let (fs, r) ← decodeFieldList fuel len r
      some (.struct i fs, r)
    | 18 :: i :: len :: r => do
      let (vs, r) ← decodeVariantList fuel len r
      some (.enum i vs, r)
    | 19 :: i :: r => some (.typeOf i, r)
    | 20 :: r => some (.object, r)
    | _ => none

def decodeTyList : Nat → Nat → List Nat → Option (List Ty × List Nat)
  | 0, _, _ => none
  | _ + 1, 0, toks => some ([], toks)
  | fuel + 1, len + 1, toks => do
    let (t, r) ← decodeTy fuel toks
    let (ts, r) ← decodeTyList fuel len r
    some (t :: ts, r)

def decodeFieldList : Nat → Nat → List Nat → Option (List (Nat × Ty) × List Nat)
  | 0, _, _ => none
  | _ + 1, 0, toks => some ([], toks)
  | fuel + 1, len + 1, toks =>
    match toks with
    | n :: r => do
      let (t, r) ← decodeTy fuel r
      let (fs, r) ← decodeFieldList fuel len r
      some ((n, t) :: fs, r)
    | [] => none

def decodeVariantList :
    Nat → Nat → List Nat → Option (List (Nat × Option (List (Nat × Ty))) × List Nat)
  | 0, _, _ => none
  | _ + 1, 0, toks => some ([], toks)
  | fuel + 1, len + 1, toks =>
    match toks with
    | n :: 0 :: r => do
      let (vs, r) ← decodeVariantList fuel len r
      some ((n, none) :: vs, r)
    | n :: 1 :: flen :: r => do
      let (fs, r) ← decodeFieldList fuel flen r
      let (vs, r) ← decodeVariantList fuel len r
      some ((n, some fs) :: vs, r)
    | _ => none

end

/-- The `Tcx::store_type_map` (`src/compiler/check/src/tcx.rs:316`): flatten the
per-item map and serialize it length-prefixed; the codec itself is modelled
from the spec (§4.3). -/
def storeTypeMap (m : List (Nat × Ty)) : List Nat :=
  m.length :: (m.map (fun e => e.1 :: encodeTy e.2)).flatten

/-- One entry at a time: read the id, decode the tree, re-intern it into
the current interner, keep `(id, pointer)`. -/
def loadEntries (hash : Ty → Nat) (shardBits : Nat) :
    Nat → Interner → List Nat → Option (Interner × List (Nat × Nat))
  | 0, σ, _ => some (σ, [])
  | count + 1, σ, toks =>
    match toks with
    | id :: r => do
      let (t, r') ← decodeTy (r.length + 1) r
      let (σ', p) := σ.intern hash shardBits t
      let (σ'', es) ← loadEntries hash shardBits count σ' r'
      some (σ'', (id, p) :: es)
    | [] => none

/-- The `Tcx::load_type_map` (`src/compiler/check/src/tcx.rs:341`): deserialize
the length-prefixed entry list into the current interner, re-interning each
`Type` as it is read; decode failures are fatal (`None`). -/
def loadTypeMap (hash : Ty → Nat) (shardBits : Nat) (σ : Interner) (toks : List Nat) :
    Option (Interner × List (Nat × Nat)) :=
  match toks with
  | count :: r => loadEntries hash shardBits count σ r
  | [] => none

/-! ## MIR (`src/mir/src/lib.rs`) -/

/-- The `LocalKind`. -/
inductive LocalKind where
  | ret | arg | var | tmp
  deriving DecidableEq

/-- The `Local` (ids are the `usize` payloads of `LocalId`). -/
structure MirLocal where
  id : Nat
  kind : LocalKind
  ty : Ty

mutual

/-- The `Place`. -/
inductive Place where
  | mk (base : PlaceBase) (elems : List PlaceElem) : Place

/-- The `PlaceBase`. -/
inductive PlaceBase where
  | local (id : Nat) : PlaceBase
  | global (id : Nat) : PlaceBase

/-- The `PlaceElem`. -/
inductive PlaceElem where
  | deref : PlaceElem
  | field (i : Nat) : PlaceElem
  | index (p : Place) : PlaceElem

end

/-- The `Const`; `Bytes` bytes and `Scalar` values are `Nat`s. -/
inductive Const where
  | undefined : Const
  | tuple (cs : List Const) : Const
  | array (cs : List Const) : Const
  | scalar (v : Nat) (ty : Ty) : Const
  | funcAddr (id : Nat) : Const
  | bytes (bs : List Nat) : Const
  | type (ty : Ty) : Const

/-- The `Operand`. -/
inductive Operand where
  | place (p : Place)
  | const (c : Const)

/-- The `BinOp`. -/
inductive MirBinOp where
  | add | sub | mul | div | rem | eq | ne | lt | le | gt | ge
  | bitAnd | bitOr | bitXOr | shl | shr
  deriving DecidableEq

/-- The `UnOp`. -/
inductive MirUnOp where
  | neg | not
  deriving DecidableEq

/-- The `RValue`. -/
inductive RValue where
  | use (op : Operand)
  | ref (p : Place)
  | cast (ty : Ty) (op : Operand)
  | binOp (op : MirBinOp) (a b : Operand)
  | unOp (op : MirUnOp) (a : Operand)
  | init (ty : Ty) (ops : List Operand)

/-- The `Stmt`. -/
inductive Stmt where
  | nop
  | assign (p : Place) (rv : RValue)

/-- The `Term` (terminators; `Switch` values are `u128`s). -/
inductive Term where
  | unset
  | abort
  | ret
  | jump (b : Nat)
  | switch (op : Operand) (vals : List Nat) (targets : List Nat)
  | call (dest : Place) (func : Operand) (args : List Operand) (target : Nat)

/-- The `Block`. -/
structure MirBlock where
  id : Nat
  stmts : List Stmt
  term : Term

/-- The `Package::declare_body` (`src/mir/src/lib.rs:183`): local 0 is the
`Ret` local; each parameter is inserted as an `Arg` local keyed by the
current map length.  The `BTreeMap` is modelled as the list of inserted
locals (keys are inserted in increasing order). -/
def declareBodyLocals (params : List (Nat × Ty)) (ret : Ty) : List MirLocal :=
  let locals : List MirLocal := [⟨0, .ret, ret⟩]
  params.foldl (fun locals p => locals ++ [⟨locals.length, .arg, p.2⟩]) locals

/-- A builder step that creates a local (`Builder::create_var` /
`Builder::create_tmp`, `src/mir/src/lib.rs:329`). -/
inductive LocalOp where
  | mkVar (ty : Ty)
  | mkTmp (ty : Ty)

/-- One `create_var`/`create_tmp`: the fresh id is the current map
length. -/
def applyLocalOp (ls : List MirLocal) : LocalOp → List MirLocal
  | .mkVar ty => ls ++ [⟨ls.length, .var, ty⟩]
  | .mkTmp ty => ls ++ [⟨ls.length, .tmp, ty⟩]

/-- A builder run: any sequence of `create_var`/`create_tmp` steps after
`declare_body`. -/
def applyLocalOps (ops : List LocalOp) (ls : List MirLocal) : List MirLocal :=
  ops.foldl applyLocalOp ls

/-- The `Builder::abort` (`src/mir/src/lib.rs:427`): sets the current block's
terminator only when it is still `Unset`. -/
def blockAbort (b : MirBlock) : MirBlock :=
  match b.term with
  | .unset => { b with term := .abort }
  | _ => b

/-- The `Builder::return_`. -/
def blockReturn (b : MirBlock) : MirBlock :=
  match b.term with
  | .unset => { b with term := .ret }
  | _ => b

/-- The `Builder::jump`. -/
def blockJump (target : Nat) (b : MirBlock) : MirBlock :=
  match b.term with
  | .unset => { b with term := .jump target }
  | _ => b

/-- The `Builder::switch`. -/
def blockSwitch (op : Operand) (vals : List Nat) (targets : List Nat) (b : MirBlock) :
    MirBlock :=
  match b.term with
  | .unset => { b with term := .switch op vals targets }
  | _ => b

/-- The `Builder::call`. -/
def blockCall (dest : Place) (func : Operand) (args : List Operand) (target : Nat)
    (b : MirBlock) : MirBlock :=
  match b.term with
  | .unset => { b with term := .call dest func args target }
  | _ => b

/-- The `Builder::use_` (`src/mir/src/lib.rs:391`): statement appenders push
unconditionally. -/
def blockUse (place : Place) (op : Operand) (b : MirBlock) : MirBlock :=
  { b with stmts := b.stmts ++ [.assign place (.use op)] }

/-- The `Builder::init`. -/
def blockInit (place : Place) (ty : Ty) (ops : List Operand) (b : MirBlock) : MirBlock :=
  { b with stmts := b.stmts ++ [.assign place (.init ty ops)] }

/-! ## Codegen declare pass (`src/codegen/src/trans.rs`) -/

/-- A backend ABI slot: the value type of an `AbiParam` —
a scalar-derived backend type or the target's pointer type. -/
inductive AbiTy where
  | scalarTy (s : Scalar)
  | ptrTy
  deriving DecidableEq

/-- A backend `Signature` under construction (`module.make_signature()`
starts both lists empty). -/
structure Sig where
  params : List AbiTy
  returns : List AbiTy
  deriving DecidableEq

/-- The `PassMode` of `codegen::pass`. -/
inductive PassMode where
  | noPass
  | byVal (s : Scalar)
  | byPair (a b : Scalar)
  | byRef (size : Nat)
  deriving DecidableEq

/-- Modelled from the spec: `pass_mode` (`src/codegen/src/pass.rs` is not
among the sources); §4.8: `size == 0 → NoPass`, `Scalar → ByVal`,
`ScalarPair → ByPair`, otherwise `ByRef{size}`. -/
def passMode (l : CLayout) : PassMode :=
  if l.size = 0 then .noPass
  else
    match l.abi with
    | .scalar s => .byVal s
    | .scalarPair a b => .byPair a b
    | _ => .byRef l.size

/-- The return-classification `match` of `declare` (`ItemKind::Body` arm,
`src/codegen/src/trans.rs:118`): `ByVal`/`ByPair` push return registers,
`ByRef` pushes a pointer-typed parameter instead. -/
def pushRet (sig : Sig) (m : PassMode) : Sig :=
  match m with
  | .noPass => sig
  | .byVal s => { sig with returns := sig.returns ++ [.scalarTy s] }
  | .byPair a b => { sig with returns := sig.returns ++ [.scalarTy a, .scalarTy b] }
  | .byRef _ => { sig with params := sig.params ++ [.ptrTy] }

/-- The per-parameter `match` of `declare` (`src/codegen/src/trans.rs:130`). -/
def pushParam (sig : Sig) (m : PassMode) : Sig :=
  match m with
  | .noPass => sig
  | .byVal s => { sig with params := sig.params ++ [.scalarTy s] }
  | .byPair a b => { sig with params := sig.params ++ [.scalarTy a, .scalarTy b] }
  | .byRef _ => { sig with params := sig.params ++ [.ptrTy] }

/-- The signature built by `declare` for a body: classify the return
layout first, then every parameter layout, in order. -/
def declareBodySig (ret : CLayout) (paramLyts : List CLayout) : Sig :=
  let sig : Sig := ⟨[], []⟩
  let sig := pushRet sig (passMode ret)
  paramLyts.foldl (fun sig l => pushParam sig (passMode l)) sig

/-- The ABI slots a pass mode contributes to the parameter list. -/
def PassMode.paramSlots : PassMode → List AbiTy
  | .noPass => []
  | .byVal s => [.scalarTy s]
  | .byPair a b => [.scalarTy a, .scalarTy b]
  | .byRef _ => [.ptrTy]

/-- The return registers a return's pass mode declares. -/
def PassMode.retSlots : PassMode → List AbiTy
  | .noPass => []
  | .byVal s => [.scalarTy s]
  | .byPair a b => [.scalarTy a, .scalarTy b]
  | .byRef _ => []

/-- The hidden out-pointer a `ByRef` return prepends to the parameters. -/
def PassMode.retHiddenParams : PassMode → List AbiTy
  | .byRef _ => [.ptrTy]
  | _ => []

/-! # Theorems -/

/-! ### Structural equality is reflexive -/

theorem Ty.m_pos : ∀ a : Ty, 1 ≤ a.m := by
  intro a
  cases a <;> simp [Ty.m]

theorem beq_refl_aux : ∀ n : Nat,
    (∀ a : Ty, a.m ≤ n → Ty.beq a a = true) ∧
    (∀ ts : List Ty, Ty.mList ts ≤ n → Ty.beqList ts ts = true) ∧
    (∀ fs : List (Nat × Ty), Ty.mFields fs ≤ n → Ty.beqFields fs fs = true) ∧
    (∀ vs : List (Nat × Option (List (Nat × Ty))), Ty.mVariants vs ≤ n →
      Ty.beqVariants vs vs = true) := by
  intro n
  induction n with
  | zero =>
    refine ⟨fun a ha => absurd ha (by have := Ty.m_pos a; omega), ?_, ?_, ?_⟩
    · intro ts hts
      cases ts with
      | nil => simp [Ty.beqList]
      | cons t ts' => exact absurd hts (by simp [Ty.mList])
    · intro fs hfs
      cases fs with
      | nil => simp [Ty.beqFields]
      | cons f fs' =>
        obtain ⟨nm, t⟩ := f
        exact absurd hfs (by simp [Ty.mFields])
    · intro vs hvs
      cases vs with
      | nil => simp [Ty.beqVariants]
      | cons v vs' =>
        obtain ⟨nm, of⟩ := v
        cases of with
        | none => exact absurd hvs (by simp [Ty.mVariants])
        | some fs => exact absurd hvs (by simp [Ty.mVariants])
  | succ n ih =>
    obtain ⟨ihT, ihL, ihF, ihV⟩ := ih
    refine ⟨?_, ?_, ?_, ?_⟩
    · intro a ha
      cases a
      all_goals try simp [Ty.beq]
      case ref mb t =>
        simp only [Ty.m] at ha
        simp [Ty.beq, ihT t (show t.m ≤ n by omega)]
      case array t nn =>
        simp only [Ty.m] at ha
        simp [Ty.beq, ihT t (show t.m ≤ n by omega)]
      case slice t =>
        simp only [Ty.m] at ha
        simp [Ty.beq, ihT t (show t.m ≤ n by omega)]
      case tuple ts =>
        simp only [Ty.m] at ha
        simp [Ty.beq, ihL ts (show Ty.mList ts ≤ n by omega)]
      case func ps r =>
        simp only [Ty.m] at ha
        simp [Ty.beq, ihF ps (show Ty.mFields ps ≤ n by omega),
          ihT r (show r.m ≤ n by omega)]
      case struct i fs =>
        simp only [Ty.m] at ha
        simp [Ty.beq, ihF fs (show Ty.mFields fs ≤ n by omega)]
      case enum i vs =>
        simp only [Ty.m] at ha
        simp [Ty.beq, ihV vs (show Ty.mVariants vs ≤ n by omega)]
    · intro ts hts
      cases ts with
      | nil => simp [Ty.beqList]
      | cons t ts' =>
        simp only [Ty.mList] at hts
        simp [Ty.beqList, ihT t (show Ty.m t ≤ n by omega),
          ihL ts' (show Ty.mList ts' ≤ n by omega)]
    · intro fs hfs
      cases fs with
      | nil => simp [Ty.beqFields]
      | cons f fs' =>
        obtain ⟨nm, t⟩ := f
        simp only [Ty.mFields] at hfs
        simp [Ty.beqFields, ihT t (show Ty.m t ≤ n by omega),
          ihF fs' (show Ty.mFields fs' ≤ n by omega)]
    · intro vs hvs
      cases vs with
      | nil => simp [Ty.beqVariants]
      | cons v vs' =>
        obtain ⟨nm, of⟩ := v
        cases of with
        | none =>
          simp only [Ty.mVariants] at hvs
          simp [Ty.beqVariants, Ty.beqOptFields,
            ihV vs' (show Ty.mVariants vs' ≤ n by omega)]
        | some fs =>
          simp only [Ty.mVariants] at hvs
          simp [Ty.beqVariants, Ty.beqOptFields,
            ihF fs (show Ty.mFields fs ≤ n by omega),
            ihV vs' (show Ty.mVariants vs' ≤ n by omega)]

theorem Ty.beq_refl (a : Ty) : Ty.beq a a = true :=
  (beq_refl_aux a.m).1 a le_rfl

theorem Ty.mList_pos (ts : List Ty) : 1 ≤ Ty.mList ts := by
  cases ts <;> simp [Ty.mList]

theorem Ty.mFields_pos (fs : List (Nat × Ty)) : 1 ≤ Ty.mFields fs := by
  cases fs with
  | nil => simp [Ty.mFields]
  | cons f fs =>
    obtain ⟨nm, t⟩ := f
    simp [Ty.mFields]

theorem Ty.mVariants_pos (vs : List (Nat × Option (List (Nat × Ty)))) :
    1 ≤ Ty.mVariants vs := by
  cases vs with
  | nil => simp [Ty.mVariants]
  | cons v vs =>
    obtain ⟨nm, of⟩ := v
    cases of <;> simp [Ty.mVariants]

theorem beq_sound_aux : ∀ n : Nat,
    (∀ a b : Ty, a.m ≤ n → Ty.beq a b = true → a = b) ∧
    (∀ ts us : List Ty, Ty.mList ts ≤ n → Ty.beqList ts us = true → ts = us) ∧
    (∀ fs gs : List (Nat × Ty), Ty.mFields fs ≤ n → Ty.beqFields fs gs = true → fs = gs) ∧
    (∀ vs ws : List (Nat × Option (List (Nat × Ty))), Ty.mVariants vs ≤ n →
      Ty.beqVariants vs ws = true → vs = ws) := by
  intro n
  induction n with
  | zero =>
    refine ⟨fun a b ha => absurd ha (by have := Ty.m_pos a; omega),
      fun ts us hts => absurd hts (by have := Ty.mList_pos ts; omega),
      fun fs gs hfs => absurd hfs (by have := Ty.mFields_pos fs; omega),
      fun vs ws hvs => absurd hvs (by have := Ty.mVariants_pos vs; omega)⟩
  | succ n ih =>
    obtain ⟨ihT, ihL, ihF, ihV⟩ := ih
    refine ⟨?_, ?_, ?_, ?_⟩
    · intro a b ha hb
      cases a with
      | error => cases b <;> simp [Ty.beq] at hb <;> rfl
      | never => cases b <;> simp [Ty.beq] at hb <;> rfl
      | bool => cases b <;> simp [Ty.beq] at hb <;> rfl
      | str => cases b <;> simp [Ty.beq] at hb <;> rfl
      | typeId => cases b <;> simp [Ty.beq] at hb <;> rfl
      | int nn => cases b <;> simp [Ty.beq] at hb
                  rw [hb]
      | uint nn => cases b <;> simp [Ty.beq] at hb
                   rw [hb]
      | float nn => cases b <;> simp [Ty.beq] at hb
                    rw [hb]
      | var nn => cases b <;> simp [Ty.beq] at hb
                  rw [hb]
      | vint nn => cases b <;> simp [Ty.beq] at hb
                   rw [hb]
      | vuint nn => cases b <;> simp [Ty.beq] at hb
                    rw [hb]
      | vfloat nn => cases b <;> simp [Ty.beq] at hb
                     rw [hb]
      | typeOf nn => cases b <;> simp [Ty.beq] at hb
                     rw [hb]
      | object => cases b <;> simp [Ty.beq] at hb <;> rfl
      | ref mb t =>
        cases b <;> simp [Ty.beq] at hb
        simp only [Ty.m] at ha
        rw [hb.1, ihT t _ (by omega) hb.2]
      | array t nn =>
        cases b <;> simp [Ty.beq] at hb
        simp only [Ty.m] at ha
        rw [hb.2, ihT t _ (by omega) hb.1]
      | slice t =>
        cases b <;> simp [Ty.beq] at hb
        simp only [Ty.m] at ha
        rw [ihT t _ (by omega) hb]
      | tuple ts =>
        cases b <;> simp [Ty.beq] at hb
        simp only [Ty.m] at ha
        rw [ihL ts _ (by omega) hb]
      | func ps r =>
        cases b <;> simp [Ty.beq] at hb
        simp only [Ty.m] at ha
        rw [ihF ps _ (by omega) hb.1, ihT r _ (by omega) hb.2]
      | struct i fs =>
        cases b <;> simp [Ty.beq] at hb
        simp only [Ty.m] at ha
        rw [hb.1, ihF fs _ (by omega) hb.2]
      | enum i vs =>
        cases b <;> simp [Ty.beq] at hb
        simp only [Ty.m] at ha
        rw [hb.1, ihV vs _ (by omega) hb.2]
    · intro ts us hts hb
      cases ts with
      | nil =>
        cases us with
        | nil => rfl
        | cons u us => simp [Ty.beqList] at hb
      | cons t ts' =>
        cases us with
        | nil => simp [Ty.beqList] at hb
        | cons u us' =>
          simp [Ty.beqList] at hb
          simp only [Ty.mList] at hts
          have h1 := Ty.mList_pos ts'
          rw [ihT t u (by omega) hb.1, ihL ts' us' (by omega) hb.2]
    · intro fs gs hfs hb
      cases fs with
      | nil =>
        cases gs with
        | nil => rfl
        | cons g gs' =>
          obtain ⟨gn, gt⟩ := g
          simp [Ty.beqFields] at hb
      | cons f fs' =>
        obtain ⟨fn, ft⟩ := f
        cases gs with
        | nil => simp [Ty.beqFields] at hb
        | cons g gs' =>
          obtain ⟨gn, gt⟩ := g
          simp [Ty.beqFields] at hb
          simp only [Ty.mFields] at hfs
          have h1 := Ty.mFields_pos fs'
          rw [hb.1.1, ihT ft gt (by omega) hb.1.2, ihF fs' gs' (by omega) hb.2]
    · intro vs ws hvs hb
      cases vs with
      | nil =>
        cases ws with
        | nil => rfl
        | cons w ws' =>
          obtain ⟨wn, wof⟩ := w
          simp [Ty.beqVariants] at hb
      | cons v vs' =>
        obtain ⟨vn, vof⟩ := v
        cases ws with
        | nil => simp [Ty.beqVariants] at hb
        | cons w ws' =>
          obtain ⟨wn, wof⟩ := w
          simp [Ty.beqVariants] at hb
          cases vof with
          | none =>
            cases wof with
            | some gs => simp [Ty.beqOptFields] at hb
            | none =>
              simp only [Ty.mVariants] at hvs
              rw [hb.1.1, ihV vs' ws' (by omega) hb.2]
          | some fs =>
            cases wof with
            | none => simp [Ty.beqOptFields] at hb
            | some gs =>
              simp only [Ty.beqOptFields] at hb
              simp only [Ty.mVariants] at hvs
              have h1 := Ty.mFields_pos fs
              have h2 := Ty.mVariants_pos vs'
              rw [hb.1.1, ihF fs gs (by omega) hb.1.2, ihV vs' ws' (by omega) hb.2]

theorem Ty.beq_sound {a b : Ty} (h : Ty.beq a b = true) : a = b :=
  (beq_sound_aux a.m).1 a b le_rfl h

/-! ### The codec round trip -/

theorem encode_len_aux : ∀ n : Nat,
    (∀ a : Ty, a.m ≤ n → a.m ≤ (encodeTy a).length) ∧
    (∀ ts : List Ty, Ty.mList ts ≤ n → Ty.mList ts ≤ (encodeTyList ts).length + 1) ∧
    (∀ fs : List (Nat × Ty), Ty.mFields fs ≤ n →
      Ty.mFields fs ≤ (encodeFieldList fs).length + 1) ∧
    (∀ vs : List (Nat × Option (List (Nat × Ty))), Ty.mVariants vs ≤ n →
      Ty.mVariants vs ≤ (encodeVariantList vs).length + 1) := by
  intro n
  induction n with
  | zero =>
    refine ⟨fun a ha => absurd ha (by have := Ty.m_pos a; omega),
      fun ts hts => absurd hts (by have := Ty.mList_pos ts; omega),
      fun fs hfs => absurd hfs (by have := Ty.mFields_pos fs; omega),
      fun vs hvs => absurd hvs (by have := Ty.mVariants_pos vs; omega)⟩
  | succ n ih =>
    obtain ⟨ihT, ihL, ihF, ihV⟩ := ih
    refine ⟨?_, ?_, ?_, ?_⟩
    · intro a ha
      cases a
      all_goals simp only [Ty.m] at ha ⊢
      all_goals simp [encodeTy]
      case ref mb t =>
        have := ihT t (by omega)
        omega
      case array t nn =>
        have := ihT t (by omega)
        omega
      case slice t =>
        have := ihT t (by omega)
        omega
      case tuple ts =>
        have := ihL ts (by omega)
        omega
      case func ps r =>
        have h1 := ihF ps (by omega)
        have h2 := ihT r (by have := Ty.mFields_pos ps; omega)
        omega
      case struct i fs =>
        have := ihF fs (by omega)
        omega
      case enum i vs =>
        have := ihV vs (by omega)
        omega
    · intro ts hts
      cases ts with
      | nil => simp [encodeTyList, Ty.mList]
      | cons t ts' =>
        simp only [Ty.mList] at hts ⊢
        simp [encodeTyList]
        have h1 := ihT t (by have := Ty.mList_pos ts'; omega)
        have h2 := ihL ts' (by have := Ty.m_pos t; omega)
        have h3 := Ty.m_pos t
        omega
    · intro fs hfs
      cases fs with
      | nil => simp [encodeFieldList, Ty.mFields]
      | cons f fs' =>
        obtain ⟨nm, t⟩ := f
        simp only [Ty.mFields] at hfs ⊢
        simp [encodeFieldList]
        have h1 := ihT t (by have := Ty.mFields_pos fs'; omega)
        have h2 := ihF fs' (by have := Ty.m_pos t; omega)
        omega
    · intro vs hvs
      cases vs with
      | nil => simp [encodeVariantList, Ty.mVariants]
      | cons v vs' =>
        obtain ⟨nm, of⟩ := v
        cases of with
        | none =>
          simp only [Ty.mVariants] at hvs ⊢
          simp [encodeVariantList]
          have := ihV vs' (by omega)
          omega
        | some fs =>
          simp only [Ty.mVariants] at hvs ⊢
          simp [encodeVariantList]
          have h1 := ihF fs (by have := Ty.mVariants_pos vs'; omega)
          have h2 := ihV vs' (by have := Ty.mFields_pos fs; omega)
          omega

theorem Ty.m_le_encode_len (a : Ty) : a.m ≤ (encodeTy a).length :=
  (encode_len_aux a.m).1 a le_rfl

theorem decode_encode_aux : ∀ n : Nat,
    (∀ a : Ty, a.m ≤ n → ∀ fuel rest, a.m ≤ fuel →
      decodeTy fuel (encodeTy a ++ rest) = some (a, rest)) ∧
    (∀ ts : List Ty, Ty.mList ts ≤ n → ∀ fuel rest, Ty.mList ts ≤ fuel →
      decodeTyList fuel ts.length (encodeTyList ts ++ rest) = some (ts, rest)) ∧
    (∀ fs : List (Nat × Ty), Ty.mFields fs ≤ n → ∀ fuel rest, Ty.mFields fs ≤ fuel →
      decodeFieldList fuel fs.length (encodeFieldList fs ++ rest) = some (fs, rest)) ∧
    (∀ vs : List (Nat × Option (List (Nat × Ty))), Ty.mVariants vs ≤ n →
      ∀ fuel rest, Ty.mVariants vs ≤ fuel →
      decodeVariantList fuel vs.length (encodeVariantList vs ++ rest) = some (vs, rest)) := by
  intro n
  induction n with
  | zero =>
    refine ⟨fun a ha => absurd ha (by have := Ty.m_pos a; omega),
      fun ts hts => absurd hts (by have := Ty.mList_pos ts; omega),
      fun fs hfs => absurd hfs (by have := Ty.mFields_pos fs; omega),
      fun vs hvs => absurd hvs (by have := Ty.mVariants_pos vs; omega)⟩
  | succ n ih =>
    obtain ⟨ihT, ihL, ihF, ihV⟩ := ih
    refine ⟨?_, ?_, ?_, ?_⟩
    · intro a ha fuel rest hfuel
      cases fuel with
      | zero => exact absurd hfuel (by have := Ty.m_pos a; omega)
      | succ f =>
        cases a
        case error => rw [show encodeTy .error ++ rest = 0 :: rest by simp [encodeTy]]; rfl
        case never => rw [show encodeTy .never ++ rest = 1 :: rest by simp [encodeTy]]; rfl
        case bool => rw [show encodeTy .bool ++ rest = 2 :: rest by simp [encodeTy]]; rfl
        case str => rw [show encodeTy .str ++ rest = 3 :: rest by simp [encodeTy]]; rfl
        case typeId => rw [show encodeTy .typeId ++ rest = 4 :: rest by simp [encodeTy]]; rfl
        case int nn =>
          rw [show encodeTy (.int nn) ++ rest = 5 :: nn :: rest by simp [encodeTy]]
          rfl
        case uint nn =>
          rw [show encodeTy (.uint nn) ++ rest = 6 :: nn :: rest by simp [encodeTy]]
          rfl
        case float nn =>
          rw [show encodeTy (.float nn) ++ rest = 7 :: nn :: rest by simp [encodeTy]]
          rfl
        case var nn =>
          rw [show encodeTy (.var nn) ++ rest = 8 :: nn :: rest by simp [encodeTy]]
          rfl
        case vint nn =>
          rw [show encodeTy (.vint nn) ++ rest = 9 :: nn :: rest by simp [encodeTy]]
          rfl
        case vuint nn =>
          rw [show encodeTy (.vuint nn) ++ rest = 10 :: nn :: rest by simp [encodeTy]]
          rfl
        case vfloat nn =>
          rw [show encodeTy (.vfloat nn) ++ rest = 11 :: nn :: rest by simp [encodeTy]]
          rfl
        case typeOf nn =>
          rw [show encodeTy (.typeOf nn) ++ rest = 19 :: nn :: rest by simp [encodeTy]]
          rfl
        case object => rw [show encodeTy .object ++ rest = 20 :: rest by simp [encodeTy]]; rfl
        case ref mb t =>
          simp only [Ty.m] at ha hfuel
          rw [show encodeTy (.ref mb t) ++ rest =
            12 :: (if mb then 1 else 0) :: (encodeTy t ++ rest) by simp [encodeTy]]
          have hstep : decodeTy (f + 1) (12 :: (if mb then 1 else 0) :: (encodeTy t ++ rest)) =
              (do
                let (t', r) ← decodeTy f (encodeTy t ++ rest)
                some (.ref ((if mb then 1 else 0) == 1) t', r)) := rfl
          rw [hstep, ihT t (by omega) f rest (by omega)]
          cases mb <;> rfl
        case array t nn =>
          simp only [Ty.m] at ha hfuel
          rw [show encodeTy (.array t nn) ++ rest =
            13 :: (encodeTy t ++ (nn :: rest)) by simp [encodeTy]]
          have hstep : decodeTy (f + 1) (13 :: (encodeTy t ++ (nn :: rest))) =
              (do
                let (t', r) ← decodeTy f (encodeTy t ++ (nn :: rest))
                match r with
                | n' :: r => some (Ty.array t' n', r)
                | [] => none) := rfl
          rw [hstep, ihT t (by omega) f (nn :: rest) (by omega)]
          rfl
        case slice t =>
          simp only [Ty.m] at ha hfuel
          rw [show encodeTy (.slice t) ++ rest = 14 :: (encodeTy t ++ rest) by simp [encodeTy]]
          have hstep : decodeTy (f + 1) (14 :: (encodeTy t ++ rest)) =
              (do
                let (t', r) ← decodeTy f (encodeTy t ++ rest)
                some (.slice t', r)) := rfl
          rw [hstep, ihT t (by omega) f rest (by omega)]
          rfl
        case tuple ts =>
          simp only [Ty.m] at ha hfuel
          rw [show encodeTy (.tuple ts) ++ rest =
            15 :: ts.length :: (encodeTyList ts ++ rest) by simp [encodeTy]]
          have hstep : decodeTy (f + 1) (15 :: ts.length :: (encodeTyList ts ++ rest)) =
              (do
                let (ts', r) ← decodeTyList f ts.length (encodeTyList ts ++ rest)
                some (.tuple ts', r)) := rfl
          rw [hstep, ihL ts (by omega) f rest (by omega)]
          rfl
        case func ps r =>
          simp only [Ty.m] at ha hfuel
          have hps := Ty.mFields_pos ps
          have hr := Ty.m_pos r
          rw [show encodeTy (.func ps r) ++ rest =
            16 :: ps.length :: (encodeFieldList ps ++ (encodeTy r ++ rest)) by
              simp [encodeTy]]
          have hstep : decodeTy (f + 1)
              (16 :: ps.length :: (encodeFieldList ps ++ (encodeTy r ++ rest))) =
              (do
                let (ps', r') ← decodeFieldList f ps.length
                  (encodeFieldList ps ++ (encodeTy r ++ rest))
                let (t', r') ← decodeTy f r'
                some (.func ps' t', r')) := rfl
          rw [hstep, ihF ps (by omega) f (encodeTy r ++ rest) (by omega)]
          simp only [Option.bind_eq_bind, Option.some_bind]
          rw [ihT r (by omega) f rest (by omega)]
          rfl
        case struct i fs =>
          simp only [Ty.m] at ha hfuel
          rw [show encodeTy (.struct i fs) ++ rest =
            17 :: i :: fs.length :: (encodeFieldList fs ++ rest) by simp [encodeTy]]
          have hstep : decodeTy (f + 1)
              (17 :: i :: fs.length :: (encodeFieldList fs ++ rest)) =
              (do
                let (fs', r) ← decodeFieldList f fs.length (encodeFieldList fs ++ rest)
                some (.struct i fs', r)) := rfl
          rw [hstep, ihF fs (by omega) f rest (by omega)]
          rfl
        case enum i vs =>
          simp only [Ty.m] at ha hfuel
          rw [show encodeTy (.enum i vs) ++ rest =
            18 :: i :: vs.length :: (encodeVariantList vs ++ rest) by simp [encodeTy]]
          have hstep : decodeTy (f + 1)
              (18 :: i :: vs.length :: (encodeVariantList vs ++ rest)) =
              (do
                let (vs', r) ← decodeVariantList f vs.length (encodeVariantList vs ++ rest)
                some (.enum i vs', r)) := rfl
          rw [hstep, ihV vs (by omega) f rest (by omega)]
          rfl
    · intro ts hts fuel rest hfuel
      cases fuel with
      | zero => exact absurd hfuel (by have := Ty.mList_pos ts; omega)
      | succ f =>
        cases ts with
        | nil =>
          rw [show encodeTyList [] ++ rest = rest by simp [encodeTyList]]
          rfl
        | cons t ts' =>
          simp only [Ty.mList] at hts hfuel
          have h1 := Ty.m_pos t
          have h2 := Ty.mList_pos ts'
          rw [show encodeTyList (t :: ts') ++ rest =
            encodeTy t ++ (encodeTyList ts' ++ rest) by simp [encodeTyList]]
          have hstep : decodeTyList (f + 1) (ts'.length + 1)
              (encodeTy t ++ (encodeTyList ts' ++ rest)) =
              (do
                let (t', r) ← decodeTy f (encodeTy t ++ (encodeTyList ts' ++ rest))
                let (ts'', r) ← decodeTyList f ts'.length r
                some (t' :: ts'', r)) := rfl
          rw [show (t :: ts').length = ts'.length + 1 by simp, hstep,
            ihT t (by omega) f (encodeTyList ts' ++ rest) (by omega)]
          simp only [Option.bind_eq_bind, Option.some_bind]
          rw [ihL ts' (by omega) f rest (by omega)]
          rfl
    · intro fs hfs fuel rest hfuel
      cases fuel with
      | zero => exact absurd hfuel (by have := Ty.mFields_pos fs; omega)
      | succ f =>
        cases fs with
        | nil =>
          rw [show encodeFieldList [] ++ rest = rest by simp [encodeFieldList]]
          rfl
        | cons fd fs' =>
          obtain ⟨nm, t⟩ := fd
          simp only [Ty.mFields] at hfs hfuel
          have h1 := Ty.m_pos t
          have h2 := Ty.mFields_pos fs'
          rw [show encodeFieldList ((nm, t) :: fs') ++ rest =
            nm :: (encodeTy t ++ (encodeFieldList fs' ++ rest)) by simp [encodeFieldList]]
          have hstep : decodeFieldList (f + 1) (fs'.length + 1)
              (nm :: (encodeTy t ++ (encodeFieldList fs' ++ rest))) =
              (do
                let (t', r) ← decodeTy f (encodeTy t ++ (encodeFieldList fs' ++ rest))
                let (fs'', r) ← decodeFieldList f fs'.length r
                some ((nm, t') :: fs'', r)) := rfl
          rw [show ((nm, t) :: fs').length = fs'.length + 1 by simp, hstep,
            ihT t (by omega) f (encodeFieldList fs' ++ rest) (by omega)]
          simp only [Option.bind_eq_bind, Option.some_bind]
          rw [ihF fs' (by omega) f rest (by omega)]
          rfl
    · intro vs hvs fuel rest hfuel
      cases fuel with
      | zero => exact absurd hfuel (by have := Ty.mVariants_pos vs; omega)
      | succ f =>
        cases vs with
        | nil =>
          rw [show encodeVariantList [] ++ rest = rest by simp [encodeVariantList]]
          rfl
        | cons v vs' =>
          obtain ⟨nm, of⟩ := v
          cases of with
          | none =>
            simp only [Ty.mVariants] at hvs hfuel
            have h2 := Ty.mVariants_pos vs'
            rw [show encodeVariantList ((nm, none) :: vs') ++ rest =
              nm :: 0 :: (encodeVariantList vs' ++ rest) by simp [encodeVariantList]]
            have hstep : decodeVariantList (f + 1) (vs'.length + 1)
                (nm :: 0 :: (encodeVariantList vs' ++ rest)) =
                (do
                  let (vs'', r) ← decodeVariantList f vs'.length
                    (encodeVariantList vs' ++ rest)
                  some ((nm, none) :: vs'', r)) := rfl
            rw [show ((nm, (none : Option (List (Nat × Ty)))) :: vs').length =
              vs'.length + 1 by simp, hstep, ihV vs' (by omega) f rest (by omega)]
            rfl
          | some fs =>
            simp only [Ty.mVariants] at hvs hfuel
            have h1 := Ty.mFields_pos fs
            have h2 := Ty.mVariants_pos vs'
            rw [show encodeVariantList ((nm, some fs) :: vs') ++ rest =
              nm :: 1 :: fs.length ::
                (encodeFieldList fs ++ (encodeVariantList vs' ++ rest)) by
                simp [encodeVariantList]]
            have hstep : decodeVariantList (f + 1) (vs'.length + 1)
                (nm :: 1 :: fs.length ::
                  (encodeFieldList fs ++ (encodeVariantList vs' ++ rest))) =
                (do
                  let (fs', r) ← decodeFieldList f fs.length
                    (encodeFieldList fs ++ (encodeVariantList vs' ++ rest))
                  let (vs'', r) ← decodeVariantList f vs'.length r
                  some ((nm, some fs') :: vs'', r)) := rfl
            rw [show ((nm, some fs) :: vs').length = vs'.length + 1 by simp, hstep,
              ihF fs (by omega) f (encodeVariantList vs' ++ rest) (by omega)]
            simp only [Option.bind_eq_bind, Option.some_bind]
            rw [ihV vs' (by omega) f rest (by omega)]
            rfl

theorem decodeTy_encodeTy (a : Ty) (fuel : Nat) (rest : List Nat) (h : a.m ≤ fuel) :
    decodeTy fuel (encodeTy a ++ rest) = some (a, rest) :=
  (decode_encode_aux a.m).1 a le_rfl fuel rest h

/-! ### Interner invariants and the load of a stored map -/

theorem mem_flatten_get {α : Type} {L : List (List α)} {e : α} :
    e ∈ L.flatten ↔ ∃ i, ∃ hi : i < L.length, e ∈ L[i] := by
  rw [List.mem_flatten]
  constructor
  · rintro ⟨s, hs, he⟩
    obtain ⟨i, hi, rfl⟩ := List.mem_iff_getElem.mp hs
    exact ⟨i, hi, he⟩
  · rintro ⟨i, hi, he⟩
    exact ⟨_, List.getElem_mem hi, he⟩

theorem interner_shard_lt (k : Nat) (hash : Ty → Nat) (s : Interner)
    (hlen : s.shards.length = 1 <<< k) (t : Ty) :
    getShardIndexByHash k (hash t) < s.shards.length := by
  rw [hlen, Nat.one_shiftLeft]
  unfold getShardIndexByHash
  simp only [Nat.shiftLeft_eq, one_mul]
  exact Nat.mod_lt _ (Nat.pos_pow_of_pos _ (by omega))

theorem intern_spec (hash : Ty → Nat) (k : Nat) (s : Interner) (t : Ty)
    (hwf : s.Wf hash k) :
    (s.intern hash k t).1.Wf hash k ∧
    ((s.intern hash k t).2, t) ∈ (s.intern hash k t).1.shards.flatten ∧
    (∀ e, e ∈ s.shards.flatten → e ∈ (s.intern hash k t).1.shards.flatten) := by
  obtain ⟨hlen, hhome, hptr, hinjp, hinjv⟩ := hwf
  have hidx : getShardIndexByHash k (hash t) < s.shards.length :=
    interner_shard_lt k hash s hlen t
  have hshard : s.shards.getD (getShardIndexByHash k (hash t)) [] =
      s.shards[getShardIndexByHash k (hash t)] := by
    rw [List.getD_eq_getElem?_getD, List.getElem?_eq_getElem hidx]
    rfl
  cases hfind : (s.shards.getD (getShardIndexByHash k (hash t)) []).find?
      (fun e => Ty.beq e.2 t) with
  | some e =>
    have hres : s.intern hash k t = (s, e.1) := by
      simp only [Interner.intern]
      rw [hfind]
    have hpred : Ty.beq e.2 t = true := by
      have := List.find?_some hfind
      simpa using this
    have hval : e.2 = t := Ty.beq_sound hpred
    have hmem : e ∈ s.shards[getShardIndexByHash k (hash t)] := by
      rw [← hshard]
      exact List.mem_of_find?_eq_some hfind
    have hmemf : e ∈ s.shards.flatten := mem_flatten_get.mpr ⟨_, hidx, hmem⟩
    rw [hres]
    refine ⟨⟨hlen, hhome, hptr, hinjp, hinjv⟩, ?_, fun e he => he⟩
    have hpair : (e.1, t) = e := by
      rw [← hval]
    rw [hpair]
    exact hmemf
  | none =>
    have hres : s.intern hash k t =
        ({ shards := s.shards.set (getShardIndexByHash k (hash t))
            ((s.next, t) :: s.shards.getD (getShardIndexByHash k (hash t)) []),
           next := s.next + 1 }, s.next) := by
      simp only [Interner.intern]
      rw [hfind]
    rw [hres]
    have hnotin : ∀ f, f ∈ s.shards[getShardIndexByHash k (hash t)] →
        ¬(Ty.beq f.2 t = true) := by
      intro f hf
      refine List.find?_eq_none.mp hfind f ?_
      rw [hshard]
      exact hf
    have hflat : ∀ e, e ∈ (s.shards.set (getShardIndexByHash k (hash t))
        ((s.next, t) :: s.shards.getD (getShardIndexByHash k (hash t)) [])).flatten ↔
        e = (s.next, t) ∨ e ∈ s.shards.flatten := by
      intro e
      rw [mem_flatten_get, mem_flatten_get]
      constructor
      · rintro ⟨i, hi, he⟩
        rw [List.length_set] at hi
        by_cases hii : i = getShardIndexByHash k (hash t)
        · subst hii
          rw [List.getElem_set_self] at he
          rcases List.mem_cons.mp he with h | h
          · exact .inl h
          · refine .inr ⟨_, hi, ?_⟩
            rw [hshard] at h
            exact h
        · refine .inr ⟨i, hi, ?_⟩
          rw [List.getElem_set_ne (fun hh => hii hh.symm)] at he
          exact he
      · rintro (rfl | ⟨i, hi, he⟩)
        · refine ⟨getShardIndexByHash k (hash t), by rw [List.length_set]; exact hidx, ?_⟩
          rw [List.getElem_set_self]
          exact List.mem_cons_self _ _
        · by_cases hii : i = getShardIndexByHash k (hash t)
          · subst hii
            refine ⟨_, by rw [List.length_set]; exact hi, ?_⟩
            rw [List.getElem_set_self]
            refine List.mem_cons_of_mem _ ?_
            rw [hshard]
            exact he
          · refine ⟨i, by rw [List.length_set]; exact hi, ?_⟩
            rw [List.getElem_set_ne (fun hh => hii hh.symm)]
            exact he
    refine ⟨⟨?_, ?_, ?_, ?_, ?_⟩, ?_, ?_⟩
    · simp [List.length_set, hlen]
    · intro i hi e he
      simp only at he
      rw [List.length_set] at hi
      by_cases hii : i = getShardIndexByHash k (hash t)
      · subst hii
        rw [List.getElem_set_self] at he
        rcases List.mem_cons.mp he with h | h
        · rw [h]
        · rw [hshard] at h
          exact hhome _ hi e h
      · rw [List.getElem_set_ne (fun hh => hii hh.symm)] at he
        exact hhome i hi e he
    · intro e he
      rcases (hflat e).mp he with rfl | h
      · simp
      · have := hptr e h
        simp
        omega
    · intro e f he hf hef
      rcases (hflat e).mp he with rfl | he' <;> rcases (hflat f).mp hf with rfl | hf'
      · rfl
      · have := hptr f hf'
        simp only at hef
        omega
      · have := hptr e he'
        simp only at hef
        omega
      · exact hinjp e f he' hf' hef
    · intro e f he hf hef
      rcases (hflat e).mp he with rfl | he' <;> rcases (hflat f).mp hf with rfl | hf'
      · rfl
      · exfalso
        obtain ⟨i, hi, hf''⟩ := mem_flatten_get.mp hf'
        have hhomef := hhome i hi f hf''
        simp only at hef
        rw [← hef] at hhomef
        subst hhomef
        exact hnotin f hf'' (by rw [hef]; exact Ty.beq_refl _)
      · exfalso
        obtain ⟨i, hi, he''⟩ := mem_flatten_get.mp he'
        have hhomee := hhome i hi e he''
        simp only at hef
        rw [hef] at hhomee
        subst hhomee
        exact hnotin e he'' (by rw [← hef]; exact Ty.beq_refl _)
      · exact hinjv e f he' hf' hef
    · exact (hflat _).mpr (.inl rfl)
    · intro e he
      exact (hflat e).mpr (.inr he)

theorem deref_of_mem (s : Interner)
    (hinj : ∀ e f, e ∈ s.shards.flatten → f ∈ s.shards.flatten → e.1 = f.1 → e = f)
    (p : Nat) (t : Ty) (hmem : (p, t) ∈ s.shards.flatten) : s.deref p = some t := by
  unfold Interner.deref
  cases hf : s.shards.flatten.find? (fun e => e.1 == p) with
  | none =>
    have := List.find?_eq_none.mp hf (p, t) hmem
    simp at this
  | some e =>
    have h1 : (e.1 == p) = true := by
      have := List.find?_some hf
      simpa using this
    have h2 : e ∈ s.shards.flatten := List.mem_of_find?_eq_some hf
    have h3 : e = (p, t) := hinj e (p, t) h2 hmem (by simpa using h1)
    rw [h3]
    rfl

theorem mkInterner_wf (hash : Ty → Nat) (k : Nat) : (mkInterner k).Wf hash k := by
  have hget : ∀ i (hi : i < (mkInterner k).shards.length), (mkInterner k).shards[i] = [] := by
    intro i hi
    simp [mkInterner]
  have hflat : (mkInterner k).shards.flatten = [] := by
    rw [List.eq_nil_iff_forall_not_mem]
    intro e he
    obtain ⟨i, hi, he'⟩ := mem_flatten_get.mp he
    rw [hget i hi] at he'
    simp at he'
  refine ⟨by simp [mkInterner], ?_, ?_, ?_, ?_⟩
  · intro i hi e he
    rw [hget i hi] at he
    simp at he
  · intro e he
    rw [hflat] at he
    simp at he
  · intro e f he
    rw [hflat] at he
    simp at he
  · intro e f he
    rw [hflat] at he
    simp at he

theorem loadEntries_roundtrip (hash : Ty → Nat) (k : Nat) :
    ∀ (m : List (Nat × Ty)) (σ : Interner), σ.Wf hash k →
    ∃ σ' es,
      loadEntries hash k m.length σ ((m.map (fun e => e.1 :: encodeTy e.2)).flatten)
        = some (σ', es) ∧
      σ'.Wf hash k ∧
      (∀ e, e ∈ σ.shards.flatten → e ∈ σ'.shards.flatten) ∧
      es.length = m.length ∧
      ∀ j (hj : j < es.length) (hj' : j < m.length),
        (es.get ⟨j, hj⟩).1 = (m.get ⟨j, hj'⟩).1 ∧
        ((es.get ⟨j, hj⟩).2, (m.get ⟨j, hj'⟩).2) ∈ σ'.shards.flatten := by
  intro m
  induction m with
  | nil =>
    intro σ hwf
    refine ⟨σ, [], rfl, hwf, fun e he => he, rfl, ?_⟩
    intro j hj
    simp at hj
  | cons e0 m ih =>
    intro σ hwf
    obtain ⟨id0, t0⟩ := e0
    obtain ⟨hwf1, hmem1, hsub1⟩ := intern_spec hash k σ t0 hwf
    obtain ⟨σ', es, hload, hwf', hsub, hlen, hprop⟩ := ih (σ.intern hash k t0).1 hwf1
    refine ⟨σ', (id0, (σ.intern hash k t0).2) :: es, ?_, hwf', ?_, by simp [hlen], ?_⟩
    · rw [show ((((id0, t0) :: m).map (fun e => e.1 :: encodeTy e.2)).flatten) =
        id0 :: (encodeTy t0 ++ (m.map (fun e => e.1 :: encodeTy e.2)).flatten) by simp]
      have hstep : loadEntries hash k (m.length + 1) σ
          (id0 :: (encodeTy t0 ++ (m.map (fun e => e.1 :: encodeTy e.2)).flatten)) =
          (do
            let (t, r') ← decodeTy
              ((encodeTy t0 ++ (m.map (fun e => e.1 :: encodeTy e.2)).flatten).length + 1)
              (encodeTy t0 ++ (m.map (fun e => e.1 :: encodeTy e.2)).flatten)
            let (σ1, p) := σ.intern hash k t
            let (σ2, es') ← loadEntries hash k m.length σ1 r'
            some (σ2, (id0, p) :: es')) := rfl
      rw [show ((id0, t0) :: m).length = m.length + 1 by simp, hstep,
        decodeTy_encodeTy t0 _ _ (by
          have h1 := Ty.m_le_encode_len t0
          simp [List.length_append]
          omega)]
      simp only [Option.bind_eq_bind, Option.some_bind]
      rw [hload]
      rfl
    · intro e he
      exact hsub e (hsub1 e he)
    · intro j hj hj'
      cases j with
      | zero => exact ⟨rfl, hsub _ hmem1⟩
      | succ j' =>
        have hj2 : j' < es.length := by simpa using hj
        have hj2' : j' < m.length := by simpa using hj'
        exact hprop j' hj2 hj2'

/-- C2: storing a type map and loading it back into a well-formed interner
succeeds and reproduces the same mapping: ids come back unchanged and in
order, each loaded pointer dereferences to a type structurally equal to the
stored one, and — because every loaded tree is re-interned — structurally
equal entries come back pointer-equal inside the loading compilation. -/
theorem c2_load_store_roundtrip (hash : Ty → Nat) (k : Nat) (σ : Interner)
    (hwf : Interner.Wf hash k σ) (m : List (Nat × Ty)) :
    ∃ σ' es, loadTypeMap hash k σ (storeTypeMap m) = some (σ', es) ∧
      es.length = m.length ∧
      (∀ j (hj : j < es.length) (hj' : j < m.length),
        (es.get ⟨j, hj⟩).1 = (m.get ⟨j, hj'⟩).1 ∧
        σ'.deref (es.get ⟨j, hj⟩).2 = some (m.get ⟨j, hj'⟩).2) ∧
      (∀ j l (hj : j < es.length) (hl : l < es.length) (hj' : j < m.length)
        (hl' : l < m.length), (m.get ⟨j, hj'⟩).2 = (m.get ⟨l, hl'⟩).2 →
        (es.get ⟨j, hj⟩).2 = (es.get ⟨l, hl⟩).2) := by
  obtain ⟨σ', es, hload, hwf', hsub, hlen, hprop⟩ := loadEntries_roundtrip hash k m σ hwf
  refine ⟨σ', es, ?_, hlen, ?_, ?_⟩
  · unfold loadTypeMap storeTypeMap
    exact hload
  · intro j hj hj'
    obtain ⟨hid, hmem⟩ := hprop j hj hj'
    exact ⟨hid, deref_of_mem σ' hwf'.2.2.2.1 _ _ hmem⟩
  · intro j l hj hl hj' hl' hval
    obtain ⟨_, hmemj⟩ := hprop j hj hj'
    obtain ⟨_, hmeml⟩ := hprop l hl hl'
    have h2 := hwf'.2.2.2.2 _ _ hmemj hmeml (by simpa using hval)
    simp only [Prod.mk.injEq] at h2
    exact h2.1

/-- Witness for `c2_load_store_roundtrip`: a fresh single-shard interner
loading the stored map `[(10, Str), (11, Bool), (12, Str)]`. -/
theorem c2_load_store_roundtrip_witness :
    ∃ σ' es, loadTypeMap (fun _ => 0) 0 (mkInterner 0)
      (storeTypeMap [(10, .str), (11, .bool), (12, .str)]) = some (σ', es) ∧
      es.length = 3 := by
  obtain ⟨σ', es, h1, h2, _, _⟩ := c2_load_store_roundtrip (fun _ => 0) 0 (mkInterner 0)
    (mkInterner_wf (fun _ => 0) 0) [(10, .str), (11, .bool), (12, .str)]
  exact ⟨σ', es, h1, h2⟩

/-! ### C5 / C6 / C9 / C10 -/

/-- C5: the claim says `layout(Ref(mut, T))` is a pointer `Scalar` whose
valid range has lower bound 1 (non-null).  Evaluating the `Type::Ref` arm
of `Tcx::layout` on a 64-bit target shows the code leaves the range at
`0..=2^64-1` (so the layout also exposes no niche): the code contradicts
the spec's scalar-construction rule, its own sibling arms (`Str`, `Slice`,
`Func` all narrow to 1) and `mir::layout::reference`. -/
theorem c5_ref_valid_range_not_narrowed :
    (refArmLayout .u64).abi = .scalar { value := .pointer, lo := 0, hi := 2 ^ 64 - 1 } ∧
    (refArmLayout .u64).largestNiche = none := by
  constructor <;> rfl

/-- C6: the claim says `Tcx::error` pushes a diagnostic of severity
`Error`.  Evaluating the code shows it pushes `Severity::Warning` (for the
diagnostic and its label), so `has_errors` stays false — no non-zero exit
code would be produced for an ordinary type error. -/
theorem c6_error_pushes_warning :
    (tcxError [] (some 1) "mismatched types" 5).map Diagnostic.severity = [.warning] ∧
    ((tcxError [] (some 1) "mismatched types" 5).map fun d =>
      d.labels.map Label.severity) = [[.warning]] ∧
    hasErrors (tcxError [] (some 1) "mismatched types" 5) = false := by
  refine ⟨rfl, rfl, rfl⟩

/-- C9 (counterexample): the claim places the shard index at bits
`57..57+k` of the hash; at `k = 5` and `hash = 2^57` that formula gives
shard 1, but `get_shard_index_by_hash` gives shard 0 (it reads the bits
*below* the hashbrown-reserved top 7). -/
theorem c9_shard_bits_counterexample :
    getShardIndexByHash 5 (2 ^ 57) = 0 ∧
    (2 ^ 57 >>> 57) % 2 ^ 5 = 1 ∧
    getShardIndexByHash 5 (2 ^ 57) ≠ (2 ^ 57 >>> 57) % 2 ^ 5 := by
  refine ⟨by decide, by decide, by decide⟩

/-- C9 (amended): the shard index is exactly bits `(57-k)..57` of the
64-bit hash — bit `i` of the index equals bit `57 - k + i` of the hash for
`i < k` and the index is below `2^k`; with `k = 0` the single shard 0 is
used. -/
theorem c9_shard_index_amended (k hash : Nat) :
    getShardIndexByHash k hash < 2 ^ k ∧
    (∀ i : Nat, (getShardIndexByHash k hash).testBit i =
      (decide (i < k) && (hash % 2 ^ 64).testBit (57 - k + i))) ∧
    getShardIndexByHash 0 hash = 0 := by
  refine ⟨?_, ?_, ?_⟩
  · unfold getShardIndexByHash
    simp only [Nat.shiftLeft_eq, one_mul]
    exact Nat.mod_lt _ (Nat.pos_pow_of_pos _ (by omega))
  · intro i
    unfold getShardIndexByHash
    simp only [Nat.shiftLeft_eq, one_mul]
    rw [Nat.testBit_mod_two_pow, Nat.testBit_shiftRight]
  · unfold getShardIndexByHash
    simp only [Nat.shiftLeft_eq, pow_zero, one_mul]
    omega

/-- C10: once a block's terminator is set (non-`Unset`), each of the five
terminator-setting builder operations leaves it unchanged, while the
statement appenders still append (and never touch the terminator). -/
theorem c10_terminator_first_write_wins (b : MirBlock) (h : b.term ≠ .unset)
    (target : Nat) (op : Operand) (vals targets : List Nat) (dest : Place)
    (func : Operand) (args : List Operand) (place : Place) (op' : Operand)
    (ty : Ty) (ops : List Operand) :
    (blockAbort b).term = b.term ∧
    (blockReturn b).term = b.term ∧
    (blockJump target b).term = b.term ∧
    (blockSwitch op vals targets b).term = b.term ∧
    (blockCall dest func args target b).term = b.term ∧
    (blockUse place op' b).stmts = b.stmts ++ [.assign place (.use op')] ∧
    (blockUse place op' b).term = b.term ∧
    (blockInit place ty ops b).stmts = b.stmts ++ [.assign place (.init ty ops)] ∧
    (blockInit place ty ops b).term = b.term := by
  obtain ⟨id, stmts, term⟩ := b
  cases term <;>
    simp_all [blockAbort, blockReturn, blockJump, blockSwitch, blockCall,
      blockUse, blockInit]

/-! ### C3 / C4: layout claims -/

/-- C4 (counterexample): the claim says a one-field struct whose field has
`Scalar` ABI inherits that ABI; the check crate's `Tcx::struct_layout`
gives such a struct `Aggregate { sized: true }` instead. -/
theorem c4_struct_abi_counterexample :
    (cStructLayout .u64 [layoutScalar .u64 (scalarUnit .u64 (.int .i8 false))]).abi
      = .aggregate true ∧
    (layoutScalar .u64 (scalarUnit .u64 (.int .i8 false))).abi
      = .scalar (scalarUnit .u64 (.int .i8 false)) ∧
    CAbi.aggregate true ≠ .scalar (scalarUnit .u64 (.int .i8 false)) := by
  refine ⟨rfl, rfl, by decide⟩

/-- C4 (amended): the ABI-promotion rule holds for the mir crate's
`struct_layout`: one field of `Scalar`/`ScalarPair` ABI is inherited, two
`Scalar` fields become the corresponding `ScalarPair`, and every other
shape (including the check crate's `Tcx::struct_layout`, which never
promotes — see the counterexample) is `Aggregate { sized: true }`. -/
theorem c4_struct_abi_amended (t : PtrWidth) :
    (∀ a s, a.abi = .scalar s → (mStructLayout t [a]).abi = .scalar s) ∧
    (∀ a s1 s2, a.abi = .scalarPair s1 s2 →
      (mStructLayout t [a]).abi = .scalarPair s1 s2) ∧
    (∀ a b sa sb, a.abi = .scalar sa → b.abi = .scalar sb →
      (mStructLayout t [a, b]).abi = .scalarPair sa sb) ∧
    (∀ a, (∀ s, a.abi ≠ .scalar s) → (∀ s1 s2, a.abi ≠ .scalarPair s1 s2) →
      (mStructLayout t [a]).abi = .aggregate true) ∧
    (∀ a b, (∀ sa sb, ¬(a.abi = .scalar sa ∧ b.abi = .scalar sb)) →
      (mStructLayout t [a, b]).abi = .aggregate true) ∧
    (mStructLayout t []).abi = .aggregate true ∧
    (∀ a b c rest, (mStructLayout t (a :: b :: c :: rest)).abi = .aggregate true) := by
  refine ⟨?_, ?_, ?_, ?_, ?_, rfl, ?_⟩
  · intro a s habi
    obtain ⟨sz, al, st, abi, f, v, n⟩ := a
    simp only [MLayout.abi] at habi
    subst habi
    rfl
  · intro a s1 s2 habi
    obtain ⟨sz, al, st, abi, f, v, n⟩ := a
    simp only [MLayout.abi] at habi
    subst habi
    rfl
  · intro a b sa sb ha hb
    obtain ⟨sz, al, st, abi, f, v, n⟩ := a
    obtain ⟨sz', al', st', abi', f', v', n'⟩ := b
    simp only [MLayout.abi] at ha hb
    subst ha
    subst hb
    rfl
  · intro a hs hp
    obtain ⟨sz, al, st, abi, f, v, n⟩ := a
    simp only [MLayout.abi] at hs hp
    cases abi with
    | uninhabited => rfl
    | scalar s => exact absurd rfl (hs s)
    | scalarPair s1 s2 => exact absurd rfl (hp s1 s2)
    | aggregate sized => rfl
  · intro a b hne
    obtain ⟨sz, al, st, abi, f, v, n⟩ := a
    obtain ⟨sz', al', st', abi', f', v', n'⟩ := b
    simp only [MLayout.abi] at hne
    cases abi <;> cases abi' <;> first
      | exact absurd ⟨rfl, rfl⟩ (hne _ _)
      | rfl
  · intro a b c rest
    obtain ⟨sz, al, st, abi, f, v, n⟩ := a
    rfl

/-- Witness for `c4_struct_abi_amended`: a one-field struct of a `u8`
scalar inherits the scalar ABI in the mir crate's `struct_layout`. -/
theorem c4_struct_abi_amended_witness :
    (mStructLayout .u64 [mLayoutScalar .u64 (scalarUnit .u64 (.int .i8 false))]).abi
      = .scalar (scalarUnit .u64 (.int .i8 false)) :=
  (c4_struct_abi_amended .u64).1 (mLayoutScalar .u64 (scalarUnit .u64 (.int .i8 false)))
    (scalarUnit .u64 (.int .i8 false)) rfl

/-- The `cSetSingle` only rewrites the `variants` field. -/
theorem cSetSingle_fields (i : Nat) (l : CLayout) : (cSetSingle i l).fields = l.fields := by
  cases l
  rfl

/-- The `cShiftArbitrary` adds the tag size to each offset of an `Arbitrary`
field shape. -/
theorem cShiftArbitrary_fields (d : Nat) (l : CLayout) (offs : List Nat)
    (h : l.fields = .arbitrary offs) :
    (cShiftArbitrary d l).fields = .arbitrary (offs.map (· + d)) := by
  obtain ⟨sz, al, st, abi, f, v, n⟩ := l
  simp only [CLayout.fields] at h
  subst h
  rfl

/-- C3 (amended): for an enum with at least two variants,
`Tcx::enum_layout` puts the tag field at offset 0, shifts every variant's
interior `Arbitrary` offsets up by `tag_size`, sets
`size = max variant size + tag_size` and `stride = align_up(size, align)`
— but `tag_size` is `Size::from_bits(variant_count)` (i.e. the count taken
as a *bit* count, `⌈count/8⌉` bytes) rounded up to the maximal variant
alignment, and the tag's integer class is chosen from that byte count
(1→I8, 2→I16, 4→I32, 8→I64, otherwise I128), not from the number of bits
needed to represent the count. -/
theorem c3_enum_layout_amended (t : PtrWidth) (vs : List CLayout) (h : 2 ≤ vs.length) :
    let vs1 := vs.enum.map (fun p => cSetSingle p.1 p.2)
    let largest := (maxByKey CLayout.size vs1).getD defaultCLayout
    let align := largest.align
    let tagSize := sizeAlignTo (sizeFromBits vs.length) align
    ∃ W : List CLayout,
      (cEnumLayout t vs).variants = .multiple
        { value := .int
            (match tagSize with
              | 1 => .i8
              | 2 => .i16
              | 4 => .i32
              | 8 => .i64
              | _ => .i128)
            false,
          lo := 0, hi := 2 ^ 128 - 1 } .direct 0 W ∧
      W.length = vs.length ∧
      (∀ i (hi : i < vs.length) (hw : i < W.length) (offs : List Nat),
        (vs.get ⟨i, hi⟩).fields = .arbitrary offs →
        (W.get ⟨i, hw⟩).fields = .arbitrary (offs.map (· + tagSize))) ∧
      (cEnumLayout t vs).fields = .arbitrary [0, tagSize] ∧
      (cEnumLayout t vs).size = largest.size + tagSize ∧
      (cEnumLayout t vs).align = align ∧
      (cEnumLayout t vs).stride = sizeAlignTo (largest.size + tagSize) align ∧
      (cEnumLayout t vs).abi = .aggregate true ∧
      (cEnumLayout t vs).largestNiche = none := by
  match vs, h with
  | a :: b :: rest, _ =>
    dsimp only
    refine ⟨((a :: b :: rest).enum.map (fun p => cSetSingle p.1 p.2)).map
      (cShiftArbitrary (sizeAlignTo (sizeFromBits (a :: b :: rest).length)
        ((maxByKey CLayout.size
          ((a :: b :: rest).enum.map (fun p => cSetSingle p.1 p.2))).getD
            defaultCLayout).align)), ?_⟩
    have hred : cEnumLayout t (a :: b :: rest) =
        (let largestNiche := maxByKey (fun n => Niche.available n t)
          ((a :: b :: rest).filterMap CLayout.largestNiche)
        let vs1 := (a :: b :: rest).enum.map (fun p => cSetSingle p.1 p.2)
        let largest := (maxByKey CLayout.size vs1).getD defaultCLayout
        let align := largest.align
        let size0 := largest.size
        let tagSize := sizeAlignTo (sizeFromBits (a :: b :: rest).length) align
        let offsets := [0, tagSize]
        let tag : Scalar :=
          { value := .int
              (match tagSize with
                | 1 => .i8
                | 2 => .i16
                | 4 => .i32
                | 8 => .i64
                | _ => .i128)
              false,
            lo := 0, hi := 2 ^ 128 - 1 }
        let size := size0 + tagSize
        let shifted := vs1.map (cShiftArbitrary tagSize)
        let stride := sizeAlignTo size align
        CLayout.mk size align stride (.aggregate true) (.arbitrary offsets)
          (.multiple tag .direct 0 shifted) none) := by
      unfold cEnumLayout
      cases hmax : maxByKey (fun n => Niche.available n t)
          ((a :: b :: rest).filterMap CLayout.largestNiche) with
      | none => rfl
      | some n =>
        simp only [ite_self]
    rw [hred]
    refine ⟨rfl, by simp, ?_, rfl, rfl, rfl, rfl, rfl, rfl⟩
    intro i hi hw offs hf
    simp only [List.get_eq_getElem] at hf ⊢
    rw [List.getElem_map, List.getElem_map, List.getElem_enum]
    exact cShiftArbitrary_fields _ _ offs (by rw [cSetSingle_fields]; exact hf)

/-- Witness for `c3_enum_layout_amended`: the two-variant enum whose
variants are one-field `u64` structs has tag size 8 (1 byte rounded up to
the 8-byte variant alignment), size 16 and interior offsets shifted to
8. -/
theorem c3_enum_layout_amended_witness :
    2 ≤ ([cStructLayout .u64 [layoutScalar .u64 (scalarUnit .u64 (.int .i64 false))],
          cStructLayout .u64 [layoutScalar .u64 (scalarUnit .u64 (.int .i64 false))]] :
          List CLayout).length ∧
    ∃ W : List CLayout,
      (cEnumLayout .u64
        [cStructLayout .u64 [layoutScalar .u64 (scalarUnit .u64 (.int .i64 false))],
         cStructLayout .u64 [layoutScalar .u64 (scalarUnit .u64 (.int .i64 false))]]).variants
        = .multiple
          { value := .int .i64 false, lo := 0, hi := 2 ^ 128 - 1 } .direct 0 W ∧
      (cEnumLayout .u64
        [cStructLayout .u64 [layoutScalar .u64 (scalarUnit .u64 (.int .i64 false))],
         cStructLayout .u64 [layoutScalar .u64 (scalarUnit .u64 (.int .i64 false))]]).fields
        = .arbitrary [0, 8] := by
  constructor
  · simp
  · obtain ⟨W, h1, _, _, h4, _⟩ := c3_enum_layout_amended .u64
      [cStructLayout .u64 [layoutScalar .u64 (scalarUnit .u64 (.int .i64 false))],
       cStructLayout .u64 [layoutScalar .u64 (scalarUnit .u64 (.int .i64 false))]]
      (by simp)
    exact ⟨W, h1, h4⟩

/-- C3 (counterexample): the claim's tag size for a two-variant enum is the
bits needed for the count (1 bit) rounded up to an integer class (`I8`,
1 byte), giving `size = 8 + 1 = 9`; `Tcx::enum_layout` on two one-field
`u64` variants actually produces tag size 8 (aligned to the variant
alignment), size 16, and an enum field table `[0, 8]`. -/
theorem c3_tag_size_counterexample :
    (cEnumLayout .u64
      [cStructLayout .u64 [layoutScalar .u64 (scalarUnit .u64 (.int .i64 false))],
       cStructLayout .u64 [layoutScalar .u64 (scalarUnit .u64 (.int .i64 false))]]).size
      = 16 ∧
    (cStructLayout .u64 [layoutScalar .u64 (scalarUnit .u64 (.int .i64 false))]).size = 8 ∧
    (cEnumLayout .u64
      [cStructLayout .u64 [layoutScalar .u64 (scalarUnit .u64 (.int .i64 false))],
       cStructLayout .u64 [layoutScalar .u64 (scalarUnit .u64 (.int .i64 false))]]).fields
      = .arbitrary [0, 8] ∧
    (16 : Nat) ≠ 8 + 1 := by
  refine ⟨rfl, rfl, rfl, by decide⟩

/-! ### C1: interning is deterministic -/

/-- C1: interning two structurally equal `Type` values in the same table
returns the same pointer — the second `intern` of a value equal to an
already-interned one returns the pointer the first call produced.
`hlen` is the structural invariant of `Sharded` (`SHARDS = 1 << SHARD_BITS`
shards exist). -/
theorem c1_intern_deterministic (hash : Ty → Nat) (k : Nat) (s : Interner)
    (hlen : s.shards.length = 1 <<< k) (a b : Ty) (hab : a = b) :
    ((s.intern hash k a).1.intern hash k b).2 = (s.intern hash k a).2 := by
  subst hab
  have hidx : getShardIndexByHash k (hash a) < s.shards.length := by
    rw [hlen, Nat.one_shiftLeft]
    unfold getShardIndexByHash
    simp only [Nat.shiftLeft_eq, one_mul]
    exact Nat.mod_lt _ (Nat.pos_pow_of_pos _ (by omega))
  cases hfind : (s.shards.getD (getShardIndexByHash k (hash a)) []).find?
      (fun e => Ty.beq e.2 a) with
  | some e =>
    simp only [Interner.intern, hfind]
  | none =>
    simp only [Interner.intern, hfind]
    have hset : ((s.shards.set (getShardIndexByHash k (hash a))
        ((s.next, a) :: s.shards.getD (getShardIndexByHash k (hash a)) [])).getD
        (getShardIndexByHash k (hash a)) []) =
        (s.next, a) :: s.shards.getD (getShardIndexByHash k (hash a)) [] := by
      rw [List.getD_eq_getElem?_getD, List.getElem?_set_self']
      simp [List.getElem?_eq_getElem hidx]
    rw [hset]
    have hfind2 : List.find? (fun e : Nat × Ty => Ty.beq e.2 a)
        ((s.next, a) :: s.shards.getD (getShardIndexByHash k (hash a)) []) =
        some (s.next, a) :=
      List.find?_cons_of_pos (p := fun e : Nat × Ty => Ty.beq e.2 a) _ (Ty.beq_refl a)
    rw [hfind2]

/-- Witness for `c1_intern_deterministic`: interning `Type::Bool` twice in
a fresh 32-shard table returns pointer 0 both times. -/
theorem c1_intern_deterministic_witness :
    (((mkInterner 5).intern (fun _ => 3) 5 .bool).1.intern (fun _ => 3) 5 .bool).2 =
      ((mkInterner 5).intern (fun _ => 3) 5 .bool).2 :=
  c1_intern_deterministic (fun _ => 3) 5 (mkInterner 5) (by simp [mkInterner]) .bool .bool rfl

/-! ### C8: declared signatures match the pass-mode classification -/

theorem declareBodySig_fold (sig : Sig) (ls : List CLayout) :
    ls.foldl (fun sig l => pushParam sig (passMode l)) sig =
      ⟨sig.params ++ (ls.map (fun l => (passMode l).paramSlots)).flatten, sig.returns⟩ := by
  induction ls generalizing sig with
  | nil => simp
  | cons l ls ih =>
    rw [List.foldl_cons, ih]
    cases hm : passMode l <;>
      simp [pushParam, PassMode.paramSlots, hm]

/-- C8: the signature the declare pass builds for a body matches the
pass-mode classification of its return layout and of each parameter
layout in order; in particular a `ByRef` return declares no return
register and prepends the hidden out-pointer as argument 0, before all
parameter slots. -/
theorem c8_declare_sig_matches (ret : CLayout) (paramLyts : List CLayout) :
    (declareBodySig ret paramLyts).returns = (passMode ret).retSlots ∧
    (declareBodySig ret paramLyts).params =
      (passMode ret).retHiddenParams ++
        (paramLyts.map (fun l => (passMode l).paramSlots)).flatten ∧
    (∀ sz, passMode ret = .byRef sz →
      (declareBodySig ret paramLyts).returns = [] ∧
      (declareBodySig ret paramLyts).params.head? = some .ptrTy) := by
  have hbase : pushRet ⟨[], []⟩ (passMode ret) =
      ⟨(passMode ret).retHiddenParams, (passMode ret).retSlots⟩ := by
    cases passMode ret <;> rfl
  have hsig : declareBodySig ret paramLyts =
      ⟨(passMode ret).retHiddenParams ++
        (paramLyts.map (fun l => (passMode l).paramSlots)).flatten,
       (passMode ret).retSlots⟩ := by
    unfold declareBodySig
    dsimp only
    rw [hbase, declareBodySig_fold]
  refine ⟨by rw [hsig], by rw [hsig], ?_⟩
  intro sz hm
  rw [hsig, hm]
  exact ⟨rfl, rfl⟩

/-- Witness for `c8_declare_sig_matches`: an aggregate return layout of
size 16 classifies as `ByRef`, so the declared signature has no return
register and a leading pointer parameter. -/
theorem c8_declare_sig_matches_witness :
    passMode (.mk 16 3 16 (.aggregate true) .primitive (.single 0) none) = .byRef 16 ∧
    (declareBodySig (.mk 16 3 16 (.aggregate true) .primitive (.single 0) none)
      [layoutScalar .u64 (scalarUnit .u64 (.int .i32 true))]).returns = [] ∧
    (declareBodySig (.mk 16 3 16 (.aggregate true) .primitive (.single 0) none)
      [layoutScalar .u64 (scalarUnit .u64 (.int .i32 true))]).params.head? =
      some .ptrTy := by
  refine ⟨rfl, ?_⟩
  exact (c8_declare_sig_matches (.mk 16 3 16 (.aggregate true) .primitive (.single 0) none)
    [layoutScalar .u64 (scalarUnit .u64 (.int .i32 true))]).2.2 16 rfl

/-! ### C7: local ids in built bodies -/

theorem declareBodyLocals_closed (params : List (Nat × Ty)) (ret : Ty) :
    declareBodyLocals params ret =
      ⟨0, .ret, ret⟩ :: (params.enumFrom 1).map (fun p => ⟨p.1, .arg, p.2.2⟩) := by
  unfold declareBodyLocals
  suffices h : ∀ (ps : List (Nat × Ty)) (start : List MirLocal),
      ps.foldl (fun locals p => locals ++ [⟨locals.length, .arg, p.2⟩]) start =
        start ++ (ps.enumFrom start.length).map (fun p => ⟨p.1, .arg, p.2.2⟩) by
    simpa using h params [⟨0, .ret, ret⟩]
  intro ps
  induction ps with
  | nil => intro start; simp
  | cons p ps ih =>
    intro start
    rw [List.foldl_cons, ih, List.enumFrom_cons]
    simp

theorem applyLocalOps_closed (ops : List LocalOp) (ls : List MirLocal) :
    ∃ suff : List MirLocal,
      applyLocalOps ops ls = ls ++ suff ∧
      ∀ j (hj : j < suff.length),
        (suff.get ⟨j, hj⟩).id = ls.length + j ∧
        ((suff.get ⟨j, hj⟩).kind = .var ∨ (suff.get ⟨j, hj⟩).kind = .tmp) := by
  induction ops generalizing ls with
  | nil =>
    refine ⟨[], by simp [applyLocalOps], ?_⟩
    intro j hj
    simp at hj
  | cons op ops ih =>
    have step : ∃ x : MirLocal, applyLocalOp ls op = ls ++ [x] ∧ x.id = ls.length ∧
        (x.kind = .var ∨ x.kind = .tmp) := by
      cases op with
      | mkVar ty => exact ⟨⟨ls.length, .var, ty⟩, rfl, rfl, .inl rfl⟩
      | mkTmp ty => exact ⟨⟨ls.length, .tmp, ty⟩, rfl, rfl, .inr rfl⟩
    obtain ⟨x, hx, hxid, hxkind⟩ := step
    obtain ⟨suff, hsuff, hprop⟩ := ih (ls ++ [x])
    refine ⟨x :: suff, ?_, ?_⟩
    · rw [applyLocalOps, List.foldl_cons, hx, ← applyLocalOps, hsuff]
      simp
    · intro j hj
      cases j with
      | zero => exact ⟨hxid, hxkind⟩
      | succ j' =>
        have hj' : j' < suff.length := by simpa using hj
        have hp := hprop j' hj'
        have h1 : ((x :: suff).get ⟨j' + 1, hj⟩) = suff.get ⟨j', hj'⟩ := rfl
        rw [h1]
        refine ⟨?_, hp.2⟩
        rw [hp.1]
        simp
        omega

/-- C7: in every body built by `declare_body` followed by any sequence of
`create_var`/`create_tmp` steps, the local at position 0 has id 0 and kind
`Ret`, the `Arg` locals are exactly those with ids `1..nparams`
(consecutive, carrying the parameter types in order), every local's id
equals its position (so ids are never reused), and later-created
`Var`/`Tmp` locals sit strictly above id `nparams`. -/
theorem c7_mir_locals_invariant (params : List (Nat × Ty)) (ret : Ty)
    (ops : List LocalOp) (ls : List MirLocal)
    (hls : ls = applyLocalOps ops (declareBodyLocals params ret)) :
    params.length + 1 ≤ ls.length ∧
    (∀ i (hi : i < ls.length),
      (ls.get ⟨i, hi⟩).id = i ∧
      ((ls.get ⟨i, hi⟩).kind = .ret ↔ i = 0) ∧
      ((ls.get ⟨i, hi⟩).kind = .arg ↔ 1 ≤ i ∧ i ≤ params.length)) ∧
    (∀ i (hi : i < params.length) (hi' : i + 1 < ls.length),
      (ls.get ⟨i + 1, hi'⟩).ty = (params.get ⟨i, hi⟩).2) := by
  obtain ⟨suff, hsuff, hprop⟩ := applyLocalOps_closed ops (declareBodyLocals params ret)
  have hAlen : (declareBodyLocals params ret).length = params.length + 1 := by
    rw [declareBodyLocals_closed]
    simp
  simp only [hAlen] at hprop
  rw [declareBodyLocals_closed] at hsuff hls
  rw [hsuff] at hls
  subst hls
  have hlen : ((⟨0, .ret, ret⟩ :: (params.enumFrom 1).map
      (fun p => (⟨p.1, .arg, p.2.2⟩ : MirLocal))) ++ suff).length =
      params.length + 1 + suff.length := by
    simp
    omega
  have hAgetS : ∀ j (hj : j < params.length)
      (hb : j + 1 < (⟨0, .ret, ret⟩ :: (params.enumFrom 1).map
        (fun p => (⟨p.1, .arg, p.2.2⟩ : MirLocal))).length),
      ((⟨0, .ret, ret⟩ :: (params.enumFrom 1).map
        (fun p => (⟨p.1, .arg, p.2.2⟩ : MirLocal))).get ⟨j + 1, hb⟩) =
        ⟨1 + j, .arg, (params.get ⟨j, hj⟩).2⟩ := by
    intro j hj hb
    simp only [List.get_eq_getElem, List.getElem_cons_succ, List.getElem_map]
    rw [List.getElem_enumFrom]
  have hleft : ∀ i (hi : i < ((⟨0, .ret, ret⟩ :: (params.enumFrom 1).map
      (fun p => (⟨p.1, .arg, p.2.2⟩ : MirLocal))) ++ suff).length)
      (hc : i < params.length + 1),
      (((⟨0, .ret, ret⟩ :: (params.enumFrom 1).map
        (fun p => (⟨p.1, .arg, p.2.2⟩ : MirLocal))) ++ suff).get ⟨i, hi⟩) =
      ((⟨0, .ret, ret⟩ :: (params.enumFrom 1).map
        (fun p => (⟨p.1, .arg, p.2.2⟩ : MirLocal))).get ⟨i, by simp; omega⟩) := by
    intro i hi hc
    simp only [List.get_eq_getElem]
    exact List.getElem_append_left (by simp; omega)
  have hright : ∀ i (hi : i < ((⟨0, .ret, ret⟩ :: (params.enumFrom 1).map
      (fun p => (⟨p.1, .arg, p.2.2⟩ : MirLocal))) ++ suff).length)
      (hc : params.length + 1 ≤ i) (hj : i - (params.length + 1) < suff.length),
      (((⟨0, .ret, ret⟩ :: (params.enumFrom 1).map
        (fun p => (⟨p.1, .arg, p.2.2⟩ : MirLocal))) ++ suff).get ⟨i, hi⟩) =
      suff.get ⟨i - (params.length + 1), hj⟩ := by
    intro i hi hc hj
    simp only [List.get_eq_getElem]
    rw [List.getElem_append_right (by simp; omega)]
    congr 1
    simp
  refine ⟨by rw [hlen]; omega, ?_, ?_⟩
  · intro i hi
    by_cases hc : i < params.length + 1
    · rw [hleft i hi hc]
      cases i with
      | zero =>
        refine ⟨rfl, by simp, by simp⟩
      | succ j =>
        have hj : j < params.length := by omega
        rw [hAgetS j hj]
        refine ⟨by simp [Nat.add_comm], by simp, by simp; omega⟩
    · have hc' : params.length + 1 ≤ i := by omega
      have hj : i - (params.length + 1) < suff.length := by
        rw [hlen] at hi
        omega
      rw [hright i hi hc' hj]
      obtain ⟨hid, hkind⟩ := hprop _ hj
      refine ⟨by rw [hid]; omega, ?_, ?_⟩
      · rcases hkind with hk | hk <;> rw [hk] <;> simp <;> omega
      · rcases hkind with hk | hk <;> rw [hk] <;> simp <;> omega
  · intro i hi hi'
    rw [hleft (i + 1) hi' (by omega), hAgetS i hi]

/-- Witness for `c7_mir_locals_invariant`: a concrete body built with two
parameters and one temporary has at least the ret local and the two arg
locals. -/
theorem c7_mir_locals_invariant_witness :
    2 + 1 ≤ (applyLocalOps [.mkTmp .bool]
      (declareBodyLocals [(5, .int 32), (6, .str)] .bool)).length :=
  (c7_mir_locals_invariant [(5, .int 32), (6, .str)] .bool [.mkTmp .bool] _ rfl).1

/-- Witness for `c10_terminator_first_write_wins` at a concrete
already-terminated block. -/
theorem c10_terminator_first_write_wins_witness :
    (blockJump 7 ⟨0, [], .abort⟩).term = Term.abort ∧
    (blockUse (.mk (.local 1) []) (.const .undefined) ⟨0, [], .abort⟩).stmts =
      [.assign (.mk (.local 1) []) (.use (.const .undefined))] := by
  have h := c10_terminator_first_write_wins ⟨0, [], .abort⟩ (by simp) 7
    (.const .undefined) [] [] (.mk (.local 1) []) (.const .undefined) []
    (.mk (.local 1) []) (.const .undefined) .bool []
  exact ⟨h.2.2.1, by simpa using h.2.2.2.2.2.1⟩

end Shade
